import Mathlib

/-!
Verification of the knowledge-base cache subsystem of community-intern.

The definitions below are a shallow embedding of
`src/community_intern/kb/cache_manager.py`,
`src/community_intern/knowledge_cache/indexer.py` and
`src/community_intern/knowledge_cache/providers/url_links.py`.
Python strings are Lean `String`s (lists of unicode scalar values),
Python dicts are association lists with unique keys in insertion order,
machine integers are `Nat`/`Int`, and fallible operations return
`Option`/`Except`.  External collaborators (the filesystem, the HTTP
layer, the web-content extractor and the summarizer) enter as explicit
oracle arguments, matching the spec's declaration that they are opaque.
-/

namespace CommunityIntern

/-! ## Python string primitives -/

/-- The set of characters stripped by Python `str.strip()` /
`str.rstrip()` with no argument: the Unicode whitespace codepoints. -/
def isPySpace (c : Char) : Bool :=
  c.toNat ∈ [0x09, 0x0a, 0x0b, 0x0c, 0x0d, 0x1c, 0x1d, 0x1e, 0x1f, 0x20,
    0x85, 0xa0, 0x1680, 0x2000, 0x2001, 0x2002, 0x2003, 0x2004, 0x2005,
    0x2006, 0x2007, 0x2008, 0x2009, 0x200a, 0x2028, 0x2029, 0x202f,
    0x205f, 0x3000]

/-- Python `line.rstrip()`: drop trailing whitespace. -/
def pyRstrip (l : List Char) : List Char :=
  (l.reverse.dropWhile isPySpace).reverse

/-- Python `s.strip()`: drop leading and trailing whitespace. -/
def pyStrip (l : List Char) : List Char :=
  pyRstrip (l.dropWhile isPySpace)

/-- Python `s.strip()` on a `String`. -/
def pyStripS (s : String) : String := ⟨pyStrip s.data⟩

/-- Python `text.replace("\r\n", "\n")`: the library replace
specialized at its literal arguments (leftmost, non-overlapping). -/
def replaceCrlf : List Char → List Char
  | [] => []
  | '\r' :: '\n' :: rest => '\n' :: replaceCrlf rest
  | c :: rest => c :: replaceCrlf rest

/-- Python `text.replace("\r", "\n")` specialized at its literal
arguments. -/
def replaceCr : List Char → List Char
  | [] => []
  | '\r' :: rest => '\n' :: replaceCr rest
  | c :: rest => c :: replaceCr rest

/-- Python `text.split("\n")`: split at every newline, keeping empty
pieces (`"".split("\n") = [""]`). -/
def splitNl (l : List Char) : List (List Char) :=
  l.foldr
    (fun c acc =>
      if c = '\n' then [] :: acc
      else
        match acc with
        | [] => [[c]]
        | h :: t => (c :: h) :: t)
    [[]]

/-- `"\n".join(lines)` on character lists. -/
def joinNl (lines : List (List Char)) : List Char :=
  List.intercalate ['\n'] lines

/-- `_normalize_text` from `kb/cache_manager.py`: replace CRLF and CR
with LF, `rstrip` every line, pop leading and trailing empty lines,
rejoin with LF. -/
def normalizeText (text : String) : String :=
  let normalized := replaceCr (replaceCrlf text.data)
  let lines := (splitNl normalized).map pyRstrip
  let lines := lines.dropWhile List.isEmpty
  let lines := (lines.reverse.dropWhile List.isEmpty).reverse
  ⟨joinNl lines⟩

/-! ## SHA-256 over byte lists

A direct transcription of FIPS 180-4, used by `_hash_text`
(`hashlib.sha256(...).hexdigest()`).  Words are `Nat`s reduced
modulo `2 ^ 32`. -/

def w32 : Nat := 4294967296

def rotr32 (n x : Nat) : Nat :=
  (x / 2 ^ n + x % 2 ^ n * 2 ^ (32 - n)) % w32

def shr32 (n x : Nat) : Nat := x / 2 ^ n

def xor3 (a b c : Nat) : Nat := Nat.xor (Nat.xor a b) c

def sha256K : List Nat :=
  [1116352408, 1899447441, 3049323471, 3921009573, 961987163, 1508970993,
   2453635748, 2870763221, 3624381080, 310598401, 607225278, 1426881987,
   1925078388, 2162078206, 2614888103, 3248222580, 3835390401, 4022224774,
   264347078, 604807628, 770255983, 1249150122, 1555081692, 1996064986,
   2554220882, 2821834349, 2952996808, 3210313671, 3336571891, 3584528711,
   113926993, 338241895, 666307205, 773529912, 1294757372, 1396182291,
   1695183700, 1986661051, 2177026350, 2456956037, 2730485921, 2820302411,
   3259730800, 3345764771, 3516065817, 3600352804, 4094571909, 275423344,
   430227734, 506948616, 659060556, 883997877, 958139571, 1322822218,
   1537002063, 1747873779, 1955562222, 2024104815, 2227730452, 2361852424,
   2428436474, 2756734187, 3204031479, 3329325298]

def sha256H0 : List Nat :=
  [1779033703, 3144134277, 1013904242, 2773480762,
   1359893119, 2600822924, 528734635, 1541459225]

/-- Pad a byte message per FIPS 180-4: append `0x80`, zeros to 56 mod
64, then the bit length as 8 big-endian bytes. -/
def sha256Pad (msg : List Nat) : List Nat :=
  let len := msg.length
  let zeros := (55 + 64 - len % 64) % 64
  let bitLen := len * 8
  msg ++ [0x80] ++ List.replicate zeros 0 ++
    ((List.range 8).map (fun i => bitLen / 2 ^ (8 * (7 - i)) % 256))

/-- Split a byte list into 64-byte chunks (fuel-driven; the fuel is
always sufficient at the call site because padding is a multiple of
64 bytes). -/
def chunks64 : Nat → List Nat → List (List Nat)
  | 0, _ => []
  | _, [] => []
  | fuel + 1, l => l.take 64 :: chunks64 fuel (l.drop 64)

/-- Assemble the first 16 message-schedule words from a 64-byte chunk
(big-endian). -/
def chunkWords (chunk : List Nat) : List Nat :=
  (List.range 16).map (fun i =>
    (chunk.getD (4 * i) 0) * 2 ^ 24 + (chunk.getD (4 * i + 1) 0) * 2 ^ 16 +
      (chunk.getD (4 * i + 2) 0) * 2 ^ 8 + chunk.getD (4 * i + 3) 0)

/-- Extend 16 words to the 64-word message schedule. -/
def sha256Schedule (ws : List Nat) : List Nat :=
  (List.range 48).foldl
    (fun w i =>
      let a := w.getD (i + 1) 0
      let b := w.getD (i + 14) 0
      let s0 := xor3 (rotr32 7 a) (rotr32 18 a) (shr32 3 a)
      let s1 := xor3 (rotr32 17 b) (rotr32 19 b) (shr32 10 b)
      w ++ [(w.getD i 0 + s0 + w.getD (i + 9) 0 + s1) % w32])
    ws

/-- One compression round. -/
def sha256Round (w : List Nat) (state : List Nat) (i : Nat) : List Nat :=
  match state with
  | [a, b, c, d, e, f, g, h] =>
    let s1 := xor3 (rotr32 6 e) (rotr32 11 e) (rotr32 25 e)
    let ch := Nat.xor (Nat.land e f) (Nat.land (Nat.xor e (w32 - 1)) g)
    let t1 := (h + s1 + ch + sha256K.getD i 0 + w.getD i 0) % w32
    let s0 := xor3 (rotr32 2 a) (rotr32 13 a) (rotr32 22 a)
    let mj := Nat.xor (Nat.xor (Nat.land a b) (Nat.land a c)) (Nat.land b c)
    let t2 := (s0 + mj) % w32
    [(t1 + t2) % w32, a, b, c, (d + t1) % w32, e, f, g]
  | other => other

/-- Process one 64-byte chunk into the running hash state. -/
def sha256Chunk (state : List Nat) (chunk : List Nat) : List Nat :=
  let w := sha256Schedule (chunkWords chunk)
  let out := (List.range 64).foldl (sha256Round w) state
  (state.zip out).map (fun p => (p.1 + p.2) % w32)

/-- SHA-256 digest of a byte list, as 32 bytes. -/
def sha256 (msg : List Nat) : List Nat :=
  let padded := sha256Pad msg
  let final := (chunks64 (padded.length + 1) padded).foldl sha256Chunk sha256H0
  final.flatMap (fun v => (List.range 4).map (fun i => v / 2 ^ (8 * (3 - i)) % 256))

/-- One lowercase hex digit. -/
def hexDigit (n : Nat) : Char :=
  if n < 10 then Char.ofNat (48 + n) else Char.ofNat (87 + n)

/-- Lowercase hex rendering of a byte list (`hexdigest`). -/
def hexLower (bytes : List Nat) : String :=
  ⟨bytes.flatMap (fun b => [hexDigit (b / 16 % 16), hexDigit (b % 16)])⟩

/-- UTF-8 encoding of one unicode scalar value. -/
def utf8Char (c : Nat) : List Nat :=
  if c < 0x80 then [c]
  else if c < 0x800 then [0xc0 + c / 64, 0x80 + c % 64]
  else if c < 0x10000 then [0xe0 + c / 4096, 0x80 + c / 64 % 64, 0x80 + c % 64]
  else [0xf0 + c / 262144, 0x80 + c / 4096 % 64, 0x80 + c / 64 % 64, 0x80 + c % 64]

/-- `s.encode("utf-8")` as a byte list. -/
def utf8Bytes (s : String) : List Nat :=
  s.data.flatMap (fun c => utf8Char c.toNat)

/-- `_hash_text` from `kb/cache_manager.py`: sha256 hexdigest of the
UTF-8 bytes of the normalized text. -/
def hashText (text : String) : String :=
  hexLower (sha256 (utf8Bytes (normalizeText text)))

/-! ## Python dicts as association lists

`dict` iteration order is insertion order; assignment to an existing
key keeps its position, assignment to a fresh key appends. -/

def alGet {α : Type} (m : List (String × α)) (k : String) : Option α :=
  (m.find? (fun p => p.1 = k)).map (fun p => p.2)

def alSet {α : Type} (m : List (String × α)) (k : String) (v : α) : List (String × α) :=
  match m with
  | [] => [(k, v)]
  | p :: rest => if p.1 = k then (k, v) :: rest else p :: alSet rest k v

def alPop {α : Type} (m : List (String × α)) (k : String) : List (String × α) :=
  m.filter (fun p => p.1 ≠ k)

def alKeys {α : Type} (m : List (String × α)) : List String :=
  m.map (fun p => p.1)

/-! ## Timestamps

`datetime` instants are modelled as `Int` seconds since the Unix
epoch, UTC.  `_format_rfc3339` renders `YYYY-MM-DDTHH:MM:SSZ` (the
`isoformat` of an aware UTC datetime with the `+00:00` suffix replaced
by `Z`); `_parse_rfc3339` accepts a trailing `Z`. -/

/-- Left-pad the decimal digits of a number with zeros. -/
def zfill (width n : Nat) : String :=
  let s := toString n
  ⟨List.replicate (width - s.length) '0'⟩ ++ s

/-- Days-since-epoch to civil (year, month, day), proleptic Gregorian. -/
def civilFromDays (z : Int) : Int × Nat × Nat :=
  let z := z + 719468
  let era := Int.fdiv z 146097
  let doe := (z - era * 146097).toNat
  let yoe := (doe - doe / 1460 + doe / 36524 - doe / 146096) / 365
  let doy := doe - (365 * yoe + yoe / 4 - yoe / 100)
  let mp := (5 * doy + 2) / 153
  let d := doy - (153 * mp + 2) / 5 + 1
  let m := if mp < 10 then mp + 3 else mp - 9
  (era * 400 + yoe + (if m ≤ 2 then 1 else 0), m, d)

/-- Civil (year, month, day) to days since the Unix epoch. -/
def daysFromCivil (y : Int) (m d : Nat) : Int :=
  let y := if m ≤ 2 then y - 1 else y
  let era := Int.fdiv y 400
  let yoe := (y - era * 400).toNat
  let mp := if m > 2 then m - 3 else m + 9
  let doy := (153 * mp + 2) / 5 + d - 1
  let doe := yoe * 365 + yoe / 4 - yoe / 100 + doy
  era * 146097 + doe - 719468

/-- `_format_rfc3339` on an instant. -/
def formatRfc3339 (t : Int) : String :=
  let days := Int.fdiv t 86400
  let secs := (t - days * 86400).toNat
  let c := civilFromDays days
  zfill 4 c.1.toNat ++ "-" ++ zfill 2 c.2.1 ++ "-" ++ zfill 2 c.2.2 ++ "T" ++
    zfill 2 (secs / 3600) ++ ":" ++ zfill 2 (secs / 60 % 60) ++ ":" ++
    zfill 2 (secs % 60) ++ "Z"

/-- Parse a run of decimal digits. -/
def parseDigits (l : List Char) : Option Nat :=
  if l = [] ∨ ¬ l.all Char.isDigit then none
  else some (l.foldl (fun acc c => acc * 10 + (c.toNat - 48)) 0)

/-- `_parse_rfc3339`: strip, accept a trailing `Z` (or an explicit
`+00:00` offset) and read back a `YYYY-MM-DDTHH:MM:SS` timestamp.
Returns `none` where the Python code would raise `ValueError`. -/
def parseRfc3339 (value : String) : Option Int :=
  let raw := pyStrip value.data
  let raw := if raw.reverse.take 1 = ['Z'] then raw.dropLast ++ "+00:00".data else raw
  let core := if raw.reverse.take 6 = "00:00+".data then raw.dropLast.dropLast.dropLast.dropLast.dropLast.dropLast else raw
  match core with
  | [y1, y2, y3, y4, '-', m1, m2, '-', d1, d2, 'T', h1, h2, ':', n1, n2, ':', s1, s2] =>
    match parseDigits [y1, y2, y3, y4], parseDigits [m1, m2], parseDigits [d1, d2],
        parseDigits [h1, h2], parseDigits [n1, n2], parseDigits [s1, s2] with
    | some y, some mo, some d, some h, some mi, some s =>
      if 1 ≤ mo ∧ mo ≤ 12 ∧ 1 ≤ d ∧ d ≤ 31 ∧ h ≤ 23 ∧ mi ≤ 59 ∧ s ≤ 59 then
        some (daysFromCivil (Int.ofNat y) mo d * 86400 + (h * 3600 + mi * 60 + s : Nat))
      else none
    | _, _, _, _, _, _ => none
  | _ => none

/-! ## Data model

`FileMetadata`, `UrlMetadata`, `CacheRecord`, `CacheState` from
`kb/cache_manager.py`.  The `Literal` annotations of the Python
dataclasses are not enforced at runtime, so the discriminator fields
are plain strings here as well. -/

structure FileMetadata where
  rel_path : String
  size_bytes : Int
  mtime_ns : Int
deriving DecidableEq, Repr

structure UrlMetadata where
  url : String
  last_fetched_at : String
  etag : Option String
  last_modified : Option String
  fetch_status : String
  next_check_at : String
deriving DecidableEq, Repr

structure CacheRecord where
  source_type : String
  content_hash : String
  summary_text : String
  last_indexed_at : String
  summary_pending : Bool := false
  file : Option FileMetadata := none
  url : Option UrlMetadata := none
deriving DecidableEq, Repr

structure CacheState where
  schema_version : Int
  generated_at : String
  sources : List (String × CacheRecord)
deriving DecidableEq, Repr

def SchemaVersion : Int := 1

/-- The configuration fields consumed by the embedded code
(`KnowledgeBaseSettings`; the pydantic model itself is outside the
cache subsystem). -/
structure KnowledgeBaseSettings where
  url_refresh_min_interval_seconds : Int
  url_refresh_min_interval_hours : Int
  runtime_refresh_tick_seconds : Int
deriving DecidableEq, Repr

/-! ## Index rendering -/

/-- Stable insertion into an ascending list: the new element goes
before the first element it compares `le` to, so equal keys keep their
original relative order (Python sort stability). -/
def insertSorted {α : Type} (le : α → α → Bool) (x : α) : List α → List α
  | [] => [x]
  | y :: ys => if le x y then x :: y :: ys else y :: insertSorted le x ys

/-- A stable ascending sort (structural, so it evaluates in the
kernel); models Python `sorted`, which is also stable. -/
def stableSort {α : Type} (le : α → α → Bool) : List α → List α
  | [] => []
  | x :: xs => insertSorted le x (stableSort le xs)

/-- Stable ascending sort of `(source_id, summary)` pairs by
`source_id`, Python `sorted(entries, key=lambda item: item[0])`. -/
def sortByKey (l : List (String × String)) : List (String × String) :=
  stableSort (fun a b => decide (a.1 ≤ b.1)) l

/-- Python `sorted` on a list of strings. -/
def sortStrings (l : List String) : List String :=
  stableSort (fun a b => decide (a ≤ b)) l

/-- The `(source_id, stripped summary)` pairs gathered by
`_build_index_entries`: the file group then the url group, each sorted
by source id.  A record "contributes a block" exactly when its pair is
in this list. -/
def indexPairs (cache : CacheState) : List (String × String) :=
  let fileEntries := cache.sources.filterMap (fun q =>
    let summary := pyStripS q.2.summary_text
    if summary = "" then none
    else if q.2.source_type = "file" then some (q.1, summary) else none)
  let urlEntries := cache.sources.filterMap (fun q =>
    let summary := pyStripS q.2.summary_text
    if summary = "" then none
    else if q.2.source_type = "url" then some (q.1, summary) else none)
  sortByKey fileEntries ++ sortByKey urlEntries

/-- `_build_index_entries` from `kb/cache_manager.py`: collect the
records whose stripped summary is non-empty into the file group and
the url group (iteration order), sort each group by source id, render
each as the stripped `"{source_id}\n{summary}"` block. -/
def buildIndexEntries (cache : CacheState) : List String :=
  (indexPairs cache).map (fun q => pyStripS (q.1 ++ "\n" ++ q.2))

/-- `_write_index`: drop whitespace-only entries and join the rest
with a blank line; the result is the index artifact's content. -/
def writeIndexContent (entries : List String) : String :=
  let entriesList := entries.filter (fun e => pyStripS e ≠ "")
  String.intercalate "\n\n" entriesList

/-- The index artifact produced by persisting `cache`
(`_persist_cache_and_index` = write cache, then build entries, then
`_write_index`). -/
def indexArtifact (cache : CacheState) : String :=
  writeIndexContent (buildIndexEntries cache)

/-! ## JSON values

The payloads handled by `json.loads` / `json.dumps`.  Objects and
arrays are separate mutual inductives so that every recursion below is
structural (and therefore evaluates inside `decide`).  Python `None`
is `Json.null`; `dict.get` of a missing key returns `None`, which
coincides with an explicit `null` for every use in the decoder. -/

mutual
inductive Json where
  | null : Json
  | bool (b : Bool) : Json
  | num (n : Int) : Json
  | str (s : String) : Json
  | arr (l : JsonList) : Json
  | obj (l : JsonFields) : Json

inductive JsonList where
  | nil : JsonList
  | cons (hd : Json) (tl : JsonList) : JsonList

inductive JsonFields where
  | nil : JsonFields
  | cons (k : String) (v : Json) (tl : JsonFields) : JsonFields
end

def JsonFields.ofList : List (String × Json) → JsonFields
  | [] => .nil
  | (k, v) :: t => .cons k v (JsonFields.ofList t)

def JsonFields.toList : JsonFields → List (String × Json)
  | .nil => []
  | .cons k v t => (k, v) :: JsonFields.toList t

def JsonFields.keys : JsonFields → List String
  | .nil => []
  | .cons k _ t => k :: JsonFields.keys t

/-- `d.get(k)` on an object: first binding wins (`json.loads` already
deduplicates keys, keeping the last occurrence). -/
def JsonFields.get : JsonFields → String → Option Json
  | .nil, _ => none
  | .cons k v t, key => if k = key then some v else JsonFields.get t key

def JsonFields.sameLength : JsonFields → JsonFields → Bool
  | .nil, .nil => true
  | .cons _ _ ta, .cons _ _ tb => JsonFields.sameLength ta tb
  | _, _ => false

mutual
/-- Python `==` on JSON values: `True == 1`, dict comparison is
order-insensitive (callers only compare objects with unique keys). -/
def Json.pyEq : Json → Json → Bool
  | .null, .null => true
  | .bool a, .bool b => a == b
  | .num a, .num b => a == b
  | .bool a, .num b => (if a then (1 : Int) else 0) == b
  | .num a, .bool b => a == (if b then (1 : Int) else 0)
  | .str a, .str b => a == b
  | .arr a, .arr b => JsonList.pyEq a b
  | .obj a, .obj b => a.sameLength b && JsonFields.pyCovers a b
  | _, _ => false

def JsonList.pyEq : JsonList → JsonList → Bool
  | .nil, .nil => true
  | .cons a ta, .cons b tb => Json.pyEq a b && JsonList.pyEq ta tb
  | _, _ => false

/-- Every binding of the first object matches a binding of the second. -/
def JsonFields.pyCovers : JsonFields → JsonFields → Bool
  | .nil, _ => true
  | .cons k v t, b =>
    (match b.get k with
     | some w => Json.pyEq v w
     | none => false) && JsonFields.pyCovers t b
end

/-! ## Cache codec (`_encode_record` … `_decode_cache`) -/

/-- `Optional[str]` rendered by `json.dumps`. -/
def encodeOptStr : Option String → Json
  | none => Json.null
  | some s => Json.str s

/-- `_encode_record`: the literal payload dict; `file` and `url` are
emitted only when present (a dataclass instance is always truthy). -/
def encodeRecord (record : CacheRecord) : Json :=
  Json.obj (JsonFields.ofList
    ([("source_type", Json.str record.source_type),
      ("content_hash", Json.str record.content_hash),
      ("summary_text", Json.str record.summary_text),
      ("last_indexed_at", Json.str record.last_indexed_at),
      ("summary_pending", Json.bool record.summary_pending)] ++
     (match record.file with
      | none => []
      | some f => [("file", Json.obj (JsonFields.ofList
          [("rel_path", Json.str f.rel_path),
           ("size_bytes", Json.num f.size_bytes),
           ("mtime_ns", Json.num f.mtime_ns)]))]) ++
     (match record.url with
      | none => []
      | some u => [("url", Json.obj (JsonFields.ofList
          [("url", Json.str u.url),
           ("last_fetched_at", Json.str u.last_fetched_at),
           ("etag", encodeOptStr u.etag),
           ("last_modified", encodeOptStr u.last_modified),
           ("fetch_status", Json.str u.fetch_status),
           ("next_check_at", Json.str u.next_check_at)]))])))

/-- Python truthiness of a JSON value (`if file_meta:`). -/
def Json.truthy : Json → Bool
  | .null => false
  | .bool b => b
  | .num n => n != 0
  | .str s => s != ""
  | .arr .nil => false
  | .arr _ => true
  | .obj .nil => false
  | .obj _ => true

/-- `int(v)`: ints pass through, bools are 0/1, strings are parsed
(optional sign and surrounding whitespace); anything else raises. -/
def pyInt : Json → Option Int
  | .num n => some n
  | .bool b => some (if b then 1 else 0)
  | .str s =>
    let core := pyStrip s.data
    match core with
    | '-' :: ds => (parseDigits ds).map (fun n => -(n : Int))
    | '+' :: ds => (parseDigits ds).map (fun n => (n : Int))
    | ds => (parseDigits ds).map (fun n => (n : Int))
  | _ => none

/-- A field the decoder reads as a string (`rel_path`, `url`, …); the
dataclass does not check the type at runtime, and the embedding
restricts attention to payloads carrying the declared types. -/
def Json.asStr : Json → Option String
  | .str s => some s
  | _ => none

/-- An `Optional[str]` field (`etag`, `last_modified`). -/
def Json.asOptStr : Json → Option (Option String)
  | .null => some none
  | .str s => some (some s)
  | _ => none

/-- `d[k]`: `KeyError` when absent. -/
def JsonFields.item (fields : JsonFields) (k : String) : Option Json :=
  fields.get k

/-- Decode the `file` sub-payload (only reached when it is truthy). -/
def decodeFileMeta (j : Json) : Option FileMetadata :=
  match j with
  | .obj fields => do
    let relPath ← (← fields.item "rel_path").asStr
    let sizeBytes ← pyInt (← fields.item "size_bytes")
    let mtimeNs ← pyInt (← fields.item "mtime_ns")
    pure { rel_path := relPath, size_bytes := sizeBytes, mtime_ns := mtimeNs }
  | _ => none

/-- Decode the `url` sub-payload (only reached when it is truthy). -/
def decodeUrlMeta (j : Json) : Option UrlMetadata :=
  match j with
  | .obj fields => do
    let url ← (← fields.item "url").asStr
    let lastFetchedAt ← (← fields.item "last_fetched_at").asStr
    let etag ← ((fields.get "etag").getD Json.null).asOptStr
    let lastModified ← ((fields.get "last_modified").getD Json.null).asOptStr
    let fetchStatus ← (← fields.item "fetch_status").asStr
    let nextCheckAt ← (← fields.item "next_check_at").asStr
    pure { url := url, last_fetched_at := lastFetchedAt, etag := etag,
           last_modified := lastModified, fetch_status := fetchStatus,
           next_check_at := nextCheckAt }
  | _ => none

/-- `_decode_record`; `none` models an exception escaping the decoder
(`KeyError`, failed `int(...)`, subscripting a non-dict, …). -/
def decodeRecord (j : Json) : Option CacheRecord :=
  match j with
  | .obj payload => do
    let fileMeta := (payload.get "file").getD Json.null
    let urlMeta := (payload.get "url").getD Json.null
    let fileValue ← if fileMeta.truthy then (decodeFileMeta fileMeta).map some else pure none
    let urlValue ← if urlMeta.truthy then (decodeUrlMeta urlMeta).map some else pure none
    let sourceType ← (← payload.item "source_type").asStr
    let contentHash ← (← payload.item "content_hash").asStr
    let summaryText ← (← payload.item "summary_text").asStr
    let lastIndexedAt ← (← payload.item "last_indexed_at").asStr
    let summaryPending := ((payload.get "summary_pending").getD (Json.bool false)).truthy
    pure { source_type := sourceType, content_hash := contentHash,
           summary_text := summaryText, last_indexed_at := lastIndexedAt,
           summary_pending := summaryPending, file := fileValue, url := urlValue }
  | _ => none

/-- `_encode_cache`. -/
def encodeCache (cache : CacheState) : Json :=
  Json.obj (JsonFields.ofList
    [("schema_version", Json.num cache.schema_version),
     ("generated_at", Json.str cache.generated_at),
     ("sources", Json.obj (JsonFields.ofList
        (cache.sources.map (fun p => (p.1, encodeRecord p.2)))))])

def decodeSources : JsonFields → Option (List (String × CacheRecord))
  | .nil => some []
  | .cons k v t => do
    let record ← decodeRecord v
    let rest ← decodeSources t
    pure ((k, record) :: rest)

/-- `_decode_cache`; `now` stands for `_utc_now()` used for the
`generated_at` default.  `none` models an exception escaping the
decoder. -/
def decodeCache (now : Int) (j : Json) : Option CacheState :=
  match j with
  | .obj payload => do
    let sourcesPayload := (payload.get "sources").getD (Json.obj .nil)
    let sources ←
      match sourcesPayload with
      | .obj fields => decodeSources fields
      | _ => none
    let schemaVersion ← pyInt ((payload.get "schema_version").getD (Json.num SchemaVersion))
    let generatedAt ← ((payload.get "generated_at").getD (Json.str (formatRfc3339 now))).asStr
    pure { schema_version := schemaVersion, generated_at := generatedAt, sources := sources }
  | _ => none

/-- The empty state produced on every load failure. -/
def emptyCacheState (now : Int) : CacheState :=
  { schema_version := SchemaVersion, generated_at := formatRfc3339 now, sources := [] }

/-- What `_load_cache` finds on disk: no file at all, a file that is
not JSON, or a parsed JSON document. -/
inductive CacheFileContents where
  | missing : CacheFileContents
  | unparseable : CacheFileContents
  | parsed (j : Json) : CacheFileContents

/-- `_load_cache`: missing file, parse/decode failure and schema
mismatch all fall back to the empty state; the function never raises
(it is total and every failure branch is mapped to
`emptyCacheState`). -/
def loadCache (now : Int) (contents : CacheFileContents) : CacheState :=
  match contents with
  | .missing => emptyCacheState now
  | .unparseable => emptyCacheState now
  | .parsed j =>
    match decodeCache now j with
    | none => emptyCacheState now
    | some cache =>
      if cache.schema_version ≠ SchemaVersion then emptyCacheState now
      else cache

/-! ## File refresh (`_process_file_source`)

External effects are oracle arguments: `stat` is the `Path.stat()`
result (`none` = `OSError`), `readRes` the `read_text` result (`none`
= `UnicodeDecodeError` or `OSError`). -/

structure Stat where
  st_size : Int
  st_mtime_ns : Int
deriving DecidableEq, Repr

structure FileStepResult where
  cache : CacheState
  persisted : Bool
  fileRead : Bool
deriving Repr

def processFileSource (cache : CacheState) (relPath : String) (stat : Option Stat)
    (readRes : Option String) (now : Int) : FileStepResult :=
  match stat with
  | none => ⟨cache, false, false⟩
  | some st =>
    match alGet cache.sources relPath with
    | none =>
      match readRes with
      | none => ⟨cache, false, true⟩
      | some text =>
        let contentHash := hashText text
        let record : CacheRecord :=
          { source_type := "file", content_hash := contentHash, summary_text := "",
            last_indexed_at := formatRfc3339 now, summary_pending := true,
            file := some ⟨relPath, st.st_size, st.st_mtime_ns⟩ }
        ⟨{ cache with sources := alSet cache.sources relPath record }, true, true⟩
    | some record =>
      if record.source_type ≠ "file" then
        ⟨{ cache with sources := alPop cache.sources relPath }, true, false⟩
      else
        let fileMeta := record.file.getD ⟨relPath, st.st_size, st.st_mtime_ns⟩
        if fileMeta.size_bytes = st.st_size ∧ fileMeta.mtime_ns = st.st_mtime_ns then
          ⟨cache, false, false⟩
        else
          match readRes with
          | none => ⟨cache, false, true⟩
          | some text =>
            let contentHash := hashText text
            let record1 := { record with file := some ⟨relPath, st.st_size, st.st_mtime_ns⟩ }
            if contentHash ≠ record.content_hash ∨ record.summary_pending then
              let record2 := { record1 with content_hash := contentHash, summary_pending := true }
              ⟨{ cache with sources := alSet cache.sources relPath record2 }, true, true⟩
            else
              ⟨{ cache with sources := alSet cache.sources relPath record1 }, true, true⟩

/-! ## URL refresh (`_refresh_single_url`, `_mark_url_failure`) -/

/-- Outcome of `_conditional_request`: each `except` arm of
`_refresh_single_url`, or a response status with fresh validators. -/
inductive CondOutcome where
  | timeout : CondOutcome
  | clientError : CondOutcome
  | unexpectedError : CondOutcome
  | ok (status : Nat) (etag : Option String) (lastModified : Option String) : CondOutcome
deriving DecidableEq, Repr

def markUrlFailure (cfg : KnowledgeBaseSettings) (record : CacheRecord) (status : String)
    (now : Int) : CacheRecord × Bool :=
  match record.url with
  | none => (record, false)
  | some urlMeta =>
    ({ record with url := some { urlMeta with
        fetch_status := status,
        next_check_at := formatRfc3339 (now + cfg.runtime_refresh_tick_seconds) } },
      true)

/-- `_refresh_single_url` as a record transformer: the returned flag
is both the `changed` return value and whether the step persisted
(every `return True` in the Python body is preceded by a persist).
`fetchRes` is the extractor body for the 200 branch (`none` = falsy
text). -/
def refreshSingleUrl (cfg : KnowledgeBaseSettings) (record : CacheRecord)
    (outcome : CondOutcome) (fetchRes : Option String) (now : Int) : CacheRecord × Bool :=
  match record.url with
  | none => (record, false)
  | some urlMeta =>
    match outcome with
    | .timeout => markUrlFailure cfg record "timeout" now
    | .clientError => markUrlFailure cfg record "error" now
    | .unexpectedError => markUrlFailure cfg record "error" now
    | .ok status etag lastModified =>
      if status = 304 then
        ({ record with url := some { urlMeta with
            fetch_status := "not_modified",
            last_fetched_at := formatRfc3339 now,
            next_check_at := formatRfc3339 (now + cfg.url_refresh_min_interval_seconds) } },
          true)
      else if status ≠ 200 then
        markUrlFailure cfg record "error" now
      else
        match fetchRes with
        | none => markUrlFailure cfg record "error" now
        | some text =>
          let contentHash := hashText text
          let urlMeta1 := { urlMeta with
            etag := etag, last_modified := lastModified, fetch_status := "success",
            last_fetched_at := formatRfc3339 now,
            next_check_at := formatRfc3339 (now + cfg.url_refresh_min_interval_seconds) }
          let shouldSummarize := contentHash ≠ record.content_hash ∨
            record.summary_pending ∨ pyStripS record.summary_text = ""
          let record1 := { record with url := some urlMeta1, content_hash := contentHash }
          if shouldSummarize then
            ({ record1 with summary_pending := true }, true)
          else
            (record1, true)

def isUrlEligible (record : CacheRecord) (now : Int) : Bool :=
  match record.url with
  | none => false
  | some urlMeta =>
    match parseRfc3339 urlMeta.next_check_at with
    | none => true
    | some nextCheck => nextCheck ≤ now

/-! ## The full-scan cycle (`_process_full_scan`)

One deterministic pass; the `asyncio.gather` fan-outs are folded in
task-creation order (each task mutates only its own record, so the
final cache value does not depend on the interleaving).  Every call of
`_persist_cache_and_index` stamps `generated_at` and appends the
persisted cache snapshot to a log, which models the sequence of states
observable on disk. -/

/-- External collaborators of one cycle. -/
structure CycleEnv where
  fileStat : String → Option Stat
  fileRead : String → Option String
  urlFetch : String → Option String
  urlCached : String → Option String
  condRequest : String → CondOutcome
  summarize : String → String → Option String

/-- `_persist_cache_and_index`: stamp `generated_at` (the cache and
index files are then written from this snapshot). -/
def persistSnap (cache : CacheState) (now : Int) : CacheState :=
  { cache with generated_at := formatRfc3339 now }

/-- Reconcile phase of `_process_full_scan`: every cached id not
discovered any more is popped, with a persist after each removal. -/
def removeStale (cache : CacheState) (currentIds : List String) (now : Int) :
    CacheState × List CacheState :=
  (alKeys cache.sources).foldl
    (fun acc sid =>
      if sid ∈ currentIds then acc
      else
        let c := persistSnap { acc.1 with sources := alPop acc.1.sources sid } now
        (c, acc.2 ++ [c]))
    (cache, [])

/-- File phase: `for rel_path, file_path in sorted(file_sources.items())`. -/
def processFileSources (env : CycleEnv) (fileSources : List String) (cache : CacheState)
    (now : Int) : CacheState × List CacheState :=
  (sortStrings fileSources).foldl
    (fun acc relPath =>
      let r := processFileSource acc.1 relPath (env.fileStat relPath) (env.fileRead relPath) now
      if r.persisted then
        let c := persistSnap r.cache now
        (c, acc.2 ++ [c])
      else (r.cache, acc.2))
    (cache, [])

/-- `_create_url_source` for one url. -/
def createUrlSource (cfg : KnowledgeBaseSettings) (env : CycleEnv) (cache : CacheState)
    (url : String) (now : Int) : CacheState × Bool :=
  match env.urlFetch url with
  | none => (cache, false)
  | some text =>
    let contentHash := hashText text
    let urlMeta : UrlMetadata :=
      { url := url, last_fetched_at := formatRfc3339 now, etag := none,
        last_modified := none, fetch_status := "success",
        next_check_at := formatRfc3339 (now + cfg.url_refresh_min_interval_seconds) }
    let record : CacheRecord :=
      { source_type := "url", content_hash := contentHash, summary_text := "",
        last_indexed_at := formatRfc3339 now, summary_pending := true, url := some urlMeta }
    ({ cache with sources := alSet cache.sources url record }, true)

/-- Creation phase: `for url in sorted(url_sources.keys())`, a task per
url with no cache record yet. -/
def createUrlSources (cfg : KnowledgeBaseSettings) (env : CycleEnv) (urlSources : List String)
    (cache : CacheState) (now : Int) : CacheState × List CacheState :=
  (sortStrings urlSources).foldl
    (fun acc url =>
      match alGet acc.1.sources url with
      | some _ => acc
      | none =>
        let r := createUrlSource cfg env acc.1 url now
        if r.2 then
          let c := persistSnap r.1 now
          (c, acc.2 ++ [c])
        else (r.1, acc.2))
    (cache, [])

/-- `_refresh_urls`: the eligible url records are snapshotted, then
each is refreshed (and persisted when changed). -/
def refreshUrls (cfg : KnowledgeBaseSettings) (env : CycleEnv) (cache : CacheState)
    (now : Int) : CacheState × Bool × List CacheState :=
  let eligible := cache.sources.filter
    (fun p => p.2.source_type == "url" && p.2.url.isSome && isUrlEligible p.2 now)
  eligible.foldl
    (fun acc p =>
      let urlString := (p.2.url.map (fun u => u.url)).getD ""
      let r := refreshSingleUrl cfg p.2 (env.condRequest urlString)
        (env.urlFetch urlString) now
      if r.2 then
        let c := persistSnap { acc.1 with sources := alSet acc.1.sources p.1 r.1 } now
        (c, true, acc.2.2 ++ [c])
      else acc)
    (cache, false, [])

/-- `_summarize_source`: the commit step, guarded by the re-check that
the record is still the same one and still pending (object identity is
modelled as value equality; within one cycle no other task rebinds the
id). -/
def summarizeSource (cache : CacheState) (sid : String) (record : CacheRecord)
    (contentHash : String) (summaryRes : Option String) (now : Int) : CacheState × Bool :=
  match summaryRes with
  | none => (cache, false)
  | some summary =>
    match alGet cache.sources sid with
    | none => (cache, false)
    | some current =>
      if current = record ∧ current.summary_pending then
        let updated := { current with
          summary_text := summary, content_hash := contentHash,
          last_indexed_at := formatRfc3339 now, summary_pending := false }
        ({ cache with sources := alSet cache.sources sid updated }, true)
      else (cache, false)

/-- The task list built by `_summarize_pending_sources`: for every
pending record, the text and its hash are captured at task-creation
time; file records need an existing discovered path that reads as
UTF-8, url records the extractor's cached body. -/
def summarizeTasks (env : CycleEnv) (fileSources : List String) (cache : CacheState) :
    List (String × CacheRecord × String) :=
  cache.sources.filterMap (fun p =>
    if ¬ p.2.summary_pending then none
    else if p.2.source_type = "file" then
      match p.2.file with
      | none => none
      | some fileMeta =>
        if fileMeta.rel_path ∈ fileSources then
          (env.fileRead fileMeta.rel_path).map (fun text => (p.1, p.2, text))
        else none
    else if p.2.source_type = "url" then
      match p.2.url with
      | none => none
      | some urlMeta => (env.urlCached urlMeta.url).map (fun text => (p.1, p.2, text))
    else none)

/-- `_summarize_pending_sources`: run every task; the second result is
the list of summarizer invocations (`source_id`s the summarizer was
called for), the third the persisted snapshots. -/
def summarizePendingSources (env : CycleEnv) (fileSources : List String)
    (cache : CacheState) (now : Int) : CacheState × List String × List CacheState :=
  (summarizeTasks env fileSources cache).foldl
    (fun acc task =>
      let r := summarizeSource acc.1 task.1 task.2.1 (hashText task.2.2)
        (env.summarize task.1 task.2.2) now
      if r.2 then
        let c := persistSnap r.1 now
        (c, acc.2.1 ++ [task.1], acc.2.2 ++ [c])
      else (r.1, acc.2.1 ++ [task.1], acc.2.2))
    (cache, [], [])

/-- One `_process_full_scan` cycle: reconcile, file refresh, url
creation, url refresh, summarization.  Returns the final in-memory
cache, the log of persisted snapshots in order, and the summarizer
call log. -/
def processFullScan (cfg : KnowledgeBaseSettings) (env : CycleEnv)
    (fileSources urlSources : List String) (cache : CacheState) (now : Int) :
    CacheState × List CacheState × List String :=
  let currentIds := fileSources ++ urlSources
  let s1 := removeStale cache currentIds now
  let s2 := processFileSources env fileSources s1.1 now
  let s3 := createUrlSources cfg env urlSources s2.1 now
  let s4 := refreshUrls cfg env s3.1 now
  let s5 := summarizePendingSources env fileSources s4.1 now
  (s5.1, s1.2 ++ s2.2 ++ s3.2 ++ s4.2.2 ++ s5.2.2, s5.2.1)

/-- The runtime refresh loop (`start_runtime_refresh` /
`_runtime_loop` / `_runtime_tick`): each tick runs one
`_process_full_scan` on the current cache.  Iterated over a list of
ticks, each carrying its collaborators, the discovered file and url
sources, and the tick's clock; the second component accumulates the
summarizer call log across all ticks. -/
def runCycles (cfg : KnowledgeBaseSettings) :
    List (CycleEnv × List String × List String × Int) → CacheState →
      CacheState × List String
  | [], cache => (cache, [])
  | c :: rest, cache =>
    let r := processFullScan cfg c.1 c.2.1 c.2.2.1 cache c.2.2.2
    let s := runCycles cfg rest r.1
    (s.1, r.2.2 ++ s.2)

/-! ## The orchestrator (`knowledge_cache/indexer.py`)

`KnowledgeIndexer.run_once` is generic over the `SourceProvider`
protocol; a provider is modelled as a record of pure functions (its
`discover` result for this cycle, `init_record`, `refresh` and
`load_text`, with `none` for `∅`). -/

structure Provider where
  discovered : List (String × String)
  initRecord : String → Option CacheRecord
  refreshFn : CacheState → CacheState × Bool
  loadText : String → Option String

/-- `_discover_sources`: merge every provider's `discover` map; a
`source_id` seen twice raises
`ValueError(f"Duplicate source_id discovered: {source_id}")`.  The
owner map carries provider indices. -/
def discoverSources (providers : List Provider) :
    Except String (List (String × String) × List (String × Nat)) :=
  providers.enum.foldl
    (fun acc pi =>
      match acc with
      | .error e => .error e
      | .ok st =>
        pi.2.discovered.foldl
          (fun acc2 kv =>
            match acc2 with
            | .error e => .error e
            | .ok st2 =>
              if (alGet st2.1 kv.1).isSome then
                .error ("Duplicate source_id discovered: " ++ kv.1)
              else
                .ok (st2.1 ++ [kv], st2.2 ++ [(kv.1, pi.1)]))
          (.ok st))
    (.ok ([], []))

/-- `_reconcile`: drop undiscovered ids, then `init_record` every
discovered id whose record is missing or of the wrong type; a changed
cache gets `generated_at` refreshed. -/
def reconcile (providers : List Provider) (cache : CacheState) (now : Int)
    (discovered : List (String × String)) (owner : List (String × Nat)) :
    CacheState × Bool :=
  let afterRemove := (alKeys cache.sources).foldl
    (fun acc sid =>
      if (alGet discovered sid).isSome then acc
      else ({ acc.1 with sources := alPop acc.1.sources sid }, true))
    (cache, false)
  let initCandidates := discovered.filterMap (fun p =>
    let needsInit :=
      match alGet afterRemove.1.sources p.1 with
      | none => true
      | some record => record.source_type ≠ p.2
    if needsInit then (alGet owner p.1).map (fun idx => (p.1, p.2, idx)) else none)
  let afterInit := initCandidates.foldl
    (fun acc c =>
      match (providers.get? c.2.2).bind (fun provider => provider.initRecord c.1) with
      | none => acc
      | some initialized =>
        ({ acc.1 with sources := alSet acc.1.sources c.1 initialized }, true))
    afterRemove
  if afterInit.2 then
    ({ afterInit.1 with generated_at := formatRfc3339 now }, true)
  else afterInit

/-- Modelled from the spec: `knowledge_cache/io.py` is not in the
source tree; per §4.2 its `read_cache_file` maps a missing file and
any parse failure to the empty state (the schema check is done by the
indexer itself). -/
def readCacheFileSpec (now : Int) (contents : CacheFileContents) : CacheState :=
  match contents with
  | .missing => emptyCacheState now
  | .unparseable => emptyCacheState now
  | .parsed j =>
    match decodeCache now j with
    | none => emptyCacheState now
    | some cache => cache

/-- Modelled from the spec: `knowledge_cache/io.py#build_index_entries`
is not in the source tree; per §4.3 a record contributes iff
`summary_pending = false ∧ summary_text ≠ ""`, blocks are
`"{source_id}\n{summary_text.trim()}"` grouped by `source_type` in the
configured order, each group sorted ascending by `source_id`, and a
configured (non-empty) prefix is a leading single-line entry. -/
def buildIndexEntriesIo (cache : CacheState) (sourceTypes : List String)
    (prefixText : String) : List String :=
  let blocks := sourceTypes.flatMap (fun t =>
    (sortByKey (cache.sources.filterMap (fun p =>
      if p.2.source_type == t && !p.2.summary_pending && p.2.summary_text != "" then
        some (p.1, pyStripS p.2.summary_text)
      else none))).map (fun q => q.1 ++ "\n" ++ q.2))
  (if prefixText != "" then [prefixText] else []) ++ blocks

/-- Modelled from the spec: `knowledge_cache/io.py#write_index_file`
joins the entries with a blank line (§4.3). -/
def writeIndexFileSpec (entries : List String) : String :=
  String.intercalate "\n\n" entries

/-- On-disk state the orchestrator writes: the cache JSON document and
the index artifact (`none` = file absent). -/
structure FilesState where
  cacheFile : CacheFileContents
  indexFile : Option String

/-- `KnowledgeIndexer._persist`: stamp `generated_at`, write the
encoded cache, render and write the index. -/
def persistIndexer (cache : CacheState) (now : Int) (sourceTypes : List String)
    (prefixText : String) : CacheState × FilesState :=
  let cache := { cache with generated_at := formatRfc3339 now }
  (cache, ⟨.parsed (encodeCache cache), some (writeIndexFileSpec
    (buildIndexEntriesIo cache sourceTypes prefixText))⟩)

/-- `_summarize_one`: load the text (skip on `∅` or whitespace), call
the LLM (`llm` oracle over the text; `none` = exception), trim, and
commit only if the record is unchanged and still pending.  The flag
reports whether a commit (and thus a persist) happened. -/
def summarizeOne (providers : List Provider) (llm : String → Option String)
    (cache : CacheState) (sid : String) (record : CacheRecord) (providerIdx : Nat)
    (now : Int) : CacheState × Bool :=
  match providers.get? providerIdx with
  | none => (cache, false)
  | some provider =>
    match provider.loadText sid with
    | none => (cache, false)
    | some text =>
      if text = "" ∨ pyStripS text = "" then (cache, false)
      else
        match llm text with
        | none => (cache, false)
        | some resultText =>
          let summary := pyStripS resultText
          match alGet cache.sources sid with
          | none => (cache, false)
          | some current =>
            if current = record ∧ current.summary_pending then
              let updated := { current with
                summary_text := summary,
                last_indexed_at := formatRfc3339 now, summary_pending := false }
              ({ cache with sources := alSet cache.sources sid updated }, true)
            else (cache, false)

/-- `_summarize_pending`: one task per pending record with a known
owner, folded in task-creation order; each commit re-persists. -/
def summarizePendingIndexer (providers : List Provider) (llm : String → Option String)
    (owner : List (String × Nat)) (cache : CacheState) (now : Int)
    (sourceTypes : List String) (prefixText : String) : CacheState × Option FilesState :=
  let pending := cache.sources.filterMap (fun p =>
    if p.2.summary_pending then (alGet owner p.1).map (fun idx => (p.1, p.2, idx))
    else none)
  pending.foldl
    (fun acc task =>
      let r := summarizeOne providers llm acc.1 task.1 task.2.1 task.2.2 now
      if r.2 then
        let pr := persistIndexer r.1 now sourceTypes prefixText
        (pr.1, some pr.2)
      else (r.1, acc.2))
    (cache, none)

/-- `run_once` (`_run_once_locked`): load, discover, reconcile,
provider refresh, persist when changed, summarize.  The result pairs
the propagated exception (if any) with the on-disk state at that
point: an exception in discovery leaves the previously persisted files
untouched. -/
def runOnce (providers : List Provider) (llm : String → Option String)
    (sourceTypes : List String) (prefixText : String) (now : Int) (fs : FilesState) :
    Except String Unit × FilesState × CacheState :=
  let cache := readCacheFileSpec now fs.cacheFile
  let cache := if cache.schema_version ≠ SchemaVersion then emptyCacheState now else cache
  match discoverSources providers with
  | .error e => (.error e, fs, cache)
  | .ok discovery =>
    let rec1 := reconcile providers cache now discovery.1 discovery.2
    let refreshed := providers.foldl
      (fun acc provider =>
        let r := provider.refreshFn acc.1
        (r.1, acc.2 || r.2))
      (rec1.1, rec1.2)
    let persisted :=
      if refreshed.2 then
        let pr := persistIndexer refreshed.1 now sourceTypes prefixText
        (pr.1, pr.2)
      else (refreshed.1, fs)
    let summarized := summarizePendingIndexer providers llm discovery.2 persisted.1 now
      sourceTypes prefixText
    (.ok (), summarized.2.getD persisted.2, summarized.1)

/-! ## Spec-side formulations

Independent renderings of what the spec asserts, stated with different
algorithms than the source embeddings so that the claim theorems
compare two genuinely distinct definitions. -/

/-- Line splitting as the spec words it: CRLF, CR and LF all terminate
a line (single pass, no intermediate replace). -/
def specSplitLines : List Char → List (List Char)
  | [] => [[]]
  | '\r' :: '\n' :: rest => [] :: specSplitLines rest
  | '\r' :: rest => [] :: specSplitLines rest
  | '\n' :: rest => [] :: specSplitLines rest
  | c :: rest =>
    match specSplitLines rest with
    | [] => [[c]]
    | h :: t => (c :: h) :: t

/-- Spec §4.1 normalization: split on CRLF / CR / LF, trim trailing
whitespace from each line, drop leading and trailing empty lines,
join with LF.  The trailing drop is phrased as a right fold. -/
def normalizeSpec (text : String) : String :=
  let lines := (specSplitLines text.data).map pyRstrip
  let lines := lines.dropWhile List.isEmpty
  let lines := lines.foldr (fun line acc => if line = [] ∧ acc = [] then [] else line :: acc) []
  ⟨joinNl lines⟩

/-- Lexicographic `≤` on byte lists. -/
def lexLeBytes : List Nat → List Nat → Bool
  | [], _ => true
  | _ :: _, [] => false
  | a :: as, b :: bs => if a < b then true else if b < a then false else lexLeBytes as bs

/-- Ascending stable sort by source id compared byte-wise on UTF-8,
as §4.3 words the ordering. -/
def sortByKeyBytes (l : List (String × String)) : List (String × String) :=
  stableSort (fun a b => lexLeBytes (utf8Bytes a.1) (utf8Bytes b.1)) l

/-- The index artifact as C4 words it: when a prefix is configured,
the single-line prefix followed by a blank line; then one block
`"{source_id}\n{summary_text trimmed}"` per contributing record,
blocks joined by a single blank line, grouped by `source_type` in the
configured order, each group sorted byte-wise on UTF-8 by source id. -/
def renderIndexSpec (cache : CacheState) (sourceTypes : List String)
    (prefixText : String) : String :=
  let blocks := sourceTypes.flatMap (fun t =>
    (sortByKeyBytes (cache.sources.filterMap (fun p =>
      if p.2.source_type == t && !p.2.summary_pending && p.2.summary_text != "" then
        some (p.1, pyStripS p.2.summary_text)
      else none))).map (fun q => q.1 ++ "\n" ++ q.2))
  if prefixText != "" then
    match blocks with
    | [] => prefixText
    | _ => prefixText ++ "\n\n" ++ String.intercalate "\n\n" blocks
  else String.intercalate "\n\n" blocks

/-! ## Canonical cache payloads

The shape `json.dumps(encode_cache(...), sort_keys=True)` writes:
every required key present with its serialized type, keys sorted,
`etag` / `last_modified` possibly `null`.  This is the well-formedness
class on which the codec round-trips to the identity. -/

def wfOptStr : Json → Bool
  | .null => true
  | .str _ => true
  | _ => false

def wfFilePayload : Json → Bool
  | .obj (.cons "mtime_ns" (.num _) (.cons "rel_path" (.str _)
      (.cons "size_bytes" (.num _) .nil))) => true
  | _ => false

def wfUrlPayload : Json → Bool
  | .obj (.cons "etag" e (.cons "fetch_status" (.str _) (.cons "last_fetched_at" (.str _)
      (.cons "last_modified" lm (.cons "next_check_at" (.str _)
      (.cons "url" (.str _) .nil)))))) => wfOptStr e && wfOptStr lm
  | _ => false

def wfRecordTail : JsonFields → Bool
  | .nil => true
  | .cons "url" u .nil => wfUrlPayload u
  | _ => false

def wfRecordPayload : Json → Bool
  | .obj (.cons "content_hash" (.str _) rest) =>
    (match rest with
     | .cons "file" f (.cons "last_indexed_at" (.str _) (.cons "source_type" (.str _)
         (.cons "summary_pending" (.bool _) (.cons "summary_text" (.str _) tail)))) =>
       wfFilePayload f && wfRecordTail tail
     | .cons "last_indexed_at" (.str _) (.cons "source_type" (.str _)
         (.cons "summary_pending" (.bool _) (.cons "summary_text" (.str _) tail))) =>
       wfRecordTail tail
     | _ => false)
  | _ => false

def wfSources : JsonFields → Bool
  | .nil => true
  | .cons k v t => !(JsonFields.keys t).contains k && wfRecordPayload v && wfSources t

def wfCachePayload : Json → Bool
  | .obj (.cons "generated_at" (.str _) (.cons "schema_version" (.num _)
      (.cons "sources" (.obj fields) .nil))) => wfSources fields
  | _ => false

/-- The load attempts that `_load_cache` maps to the empty state:
missing file, text that does not parse, a payload the decoder raises
on, or a decoded schema version different from the current one. -/
def loadFailure (now : Int) : CacheFileContents → Prop
  | .missing => True
  | .unparseable => True
  | .parsed j =>
    match decodeCache now j with
    | none => True
    | some cache => cache.schema_version ≠ SchemaVersion

instance (now : Int) (contents : CacheFileContents) : Decidable (loadFailure now contents) := by
  unfold loadFailure
  cases contents with
  | missing => exact inferInstanceAs (Decidable True)
  | unparseable => exact inferInstanceAs (Decidable True)
  | parsed j =>
    simp only
    cases decodeCache now j with
    | none => exact inferInstanceAs (Decidable True)
    | some cache => exact inferInstanceAs (Decidable (_ ≠ _))

/-! ## Concrete fixtures used to instantiate theorems -/

/-- A settled file record (summary committed, metadata `(3, 100)`). -/
def exFileRecord : CacheRecord :=
  { source_type := "file", content_hash := "h", summary_text := "S",
    last_indexed_at := "t", file := some (⟨"a.md", 3, 100⟩ : FileMetadata) }

/-- A one-record cache around `exFileRecord`. -/
def exFileCache : CacheState := ⟨1, "g", [("a.md", exFileRecord)]⟩

/-- Url metadata with validators set and an unparseable
`next_check_at` (so the record is always eligible). -/
def exUrlMeta : UrlMetadata := ⟨"http://x", "t0", some "E", some "L", "success", "bad"⟩

/-- A settled url record with unparseable `next_check_at` (eligible). -/
def exUrlRecord : CacheRecord :=
  { source_type := "url", content_hash := "h", summary_text := "U",
    last_indexed_at := "t", url := some exUrlMeta }

/-- A one-record cache around `exUrlRecord`. -/
def exUrlCache : CacheState := ⟨1, "g", [("http://x", exUrlRecord)]⟩

/-- An environment whose conditional requests all answer 304 and whose
summarizer always fails. -/
def exEnv304 : CycleEnv :=
  { fileStat := fun _ => none, fileRead := fun _ => none, urlFetch := fun _ => none,
    urlCached := fun _ => none, condRequest := fun _ => CondOutcome.ok 304 none none,
    summarize := fun _ _ => none }

/-- One runtime tick in the always-304 environment: no file sources,
the url discovered, clock 0. -/
def exCycles : List (CycleEnv × List String × List String × Int) :=
  [(exEnv304, [], ["http://x"], 0)]

/-- A record payload that omits the optional `summary_pending` field
(and the optional url validators): tolerated by `_decode_record`. -/
def exPayloadNoPending : Json :=
  Json.obj (JsonFields.ofList
    [("content_hash", Json.str "h"), ("last_indexed_at", Json.str "t"),
     ("source_type", Json.str "file"), ("summary_text", Json.str "S")])

/-- A cache payload wrapping `exPayloadNoPending`. -/
def exCachePayloadNoPending : Json :=
  Json.obj (JsonFields.ofList
    [("generated_at", Json.str "g"), ("schema_version", Json.num 1),
     ("sources", Json.obj (JsonFields.ofList [("a.md", exPayloadNoPending)]))])

/-- A canonical record payload: every encoder-written field present,
keys sorted, `etag` null and `last_modified` a string. -/
def exPayloadCanonical : Json :=
  Json.obj (JsonFields.ofList
    [("content_hash", Json.str "h"), ("last_indexed_at", Json.str "t"),
     ("source_type", Json.str "url"), ("summary_pending", Json.bool false),
     ("summary_text", Json.str "U"),
     ("url", Json.obj (JsonFields.ofList
       [("etag", Json.null), ("fetch_status", Json.str "success"),
        ("last_fetched_at", Json.str "t0"), ("last_modified", Json.str "L"),
        ("next_check_at", Json.str "t1"), ("url", Json.str "http://x")]))])

/-- A canonical cache payload wrapping `exPayloadCanonical`. -/
def exCachePayloadCanonical : Json :=
  Json.obj (JsonFields.ofList
    [("generated_at", Json.str "g"), ("schema_version", Json.num 1),
     ("sources", Json.obj (JsonFields.ofList [("http://x", exPayloadCanonical)]))])

/-- A provider discovering the file-flavoured source id "x". -/
def exProviderA : Provider :=
  { discovered := [("x", "file")], initRecord := fun _ => none,
    refreshFn := fun c => (c, false), loadText := fun _ => none }

/-- A provider discovering the url-flavoured source id "x" as well. -/
def exProviderB : Provider :=
  { discovered := [("x", "url")], initRecord := fun _ => none,
    refreshFn := fun c => (c, false), loadText := fun _ => none }

/-- An on-disk state with no cache and no index yet. -/
def exFilesState : FilesState := ⟨.missing, none⟩

/-- A baseline configuration: one hour url re-check interval (3600 s /
1 h), 60 s runtime tick. -/
def exCfg : KnowledgeBaseSettings := ⟨3600, 1, 60⟩

/-- First cycle for the C1 run: `a.md` exists with content "v1" and
the summarizer answers "S". -/
def exEnvFirst : CycleEnv :=
  { fileStat := fun _ => some ⟨3, 100⟩, fileRead := fun _ => some "v1",
    urlFetch := fun _ => none, urlCached := fun _ => none,
    condRequest := fun _ => CondOutcome.timeout, summarize := fun _ _ => some "S" }

/-- Second cycle: the file changed (new stat, content "v2") and the
summarizer fails, leaving the record pending with its old summary. -/
def exEnvChanged : CycleEnv :=
  { fileStat := fun _ => some ⟨4, 200⟩, fileRead := fun _ => some "v2",
    urlFetch := fun _ => none, urlCached := fun _ => none,
    condRequest := fun _ => CondOutcome.timeout, summarize := fun _ _ => none }

/-- The cache persisted by the first cycle: one settled record for
`a.md` with summary "S". -/
def exCacheAfterFirst : CacheState :=
  (processFullScan exCfg exEnvFirst ["a.md"] [] (emptyCacheState 0) 0).1

/-- The second cycle: detects the change, marks the record pending,
persists, then fails to summarize. -/
def exSecondRun : CacheState × List CacheState × List String :=
  processFullScan exCfg exEnvChanged ["a.md"] [] exCacheAfterFirst 1

/-- An environment whose summarizer returns the empty string. -/
def exEnvEmptySummary : CycleEnv :=
  { fileStat := fun _ => some ⟨3, 100⟩, fileRead := fun _ => some "v1",
    urlFetch := fun _ => none, urlCached := fun _ => none,
    condRequest := fun _ => CondOutcome.timeout, summarize := fun _ _ => some "" }

/-- One cycle with the empty-string summarizer, from the empty cache. -/
def exEmptySummaryRun : CacheState × List CacheState × List String :=
  processFullScan exCfg exEnvEmptySummary ["a.md"] [] (emptyCacheState 0) 0

/-- Spec invariant 2 (§3): every record with `summary_pending = false`
has a non-empty `summary_text`. -/
def pendingInvariant (cache : CacheState) : Prop :=
  ∀ p ∈ cache.sources, p.2.summary_pending = false → p.2.summary_text ≠ ""

/-- The fields of a committed url record that a 304 refresh must not
touch: not pending, given summary and content hash, url type, and
unchanged url / etag / last_modified in the metadata
(`fetch_status`, `last_fetched_at` and `next_check_at` are the only
fields a 304 may rewrite). -/
def settled304 (summary hash : String) (u : UrlMetadata) (x : CacheRecord) : Bool :=
  !x.summary_pending && (x.summary_text == summary) && (x.content_hash == hash) &&
    (x.source_type == "url") &&
    (match x.url with
     | none => false
     | some u2 => (u2.url == u.url) && (u2.etag == u.etag) &&
         (u2.last_modified == u.last_modified))

/-! ## Association list lemmas -/

theorem alGet_alSet_self {α : Type} (m : List (String × α)) (k : String) (v : α) :
    alGet (alSet m k v) k = some v := by
  induction m with
  | nil => simp [alSet, alGet]
  | cons p rest ih =>
    by_cases h : p.1 = k
    · simp [alSet, h, alGet]
    · simp only [alSet, if_neg h]
      simpa [alGet, List.find?, h] using ih

theorem alGet_alSet_ne {α : Type} (m : List (String × α)) (k k' : String) (v : α)
    (h : k ≠ k') : alGet (alSet m k v) k' = alGet m k' := by
  induction m with
  | nil => simp [alSet, alGet, List.find?, h]
  | cons p rest ih =>
    by_cases hp : p.1 = k
    · subst hp
      simp [alSet, alGet, List.find?, h]
    · simp only [alSet, if_neg hp]
      by_cases hp' : p.1 = k'
      · simp [alGet, List.find?, hp']
      · simpa [alGet, List.find?, hp'] using ih

theorem alGet_alPop_ne {α : Type} (m : List (String × α)) (k k' : String)
    (h : k ≠ k') : alGet (alPop m k) k' = alGet m k' := by
  induction m with
  | nil => simp [alPop, alGet]
  | cons p rest ih =>
    simp only [alPop, List.filter_cons] at ih ⊢
    by_cases hp : p.1 = k
    · have hcond : decide (p.1 ≠ k) = false := by simp [hp]
      rw [hcond]
      have hk' : p.1 ≠ k' := fun hh => h (hp ▸ hh ▸ rfl)
      have h1 : (decide (p.1 = k')) = false := by simp [hk']
      simp only [alGet, List.find?, h1, cond_false, Bool.false_eq_true, if_false] at ih ⊢
      exact ih
    · have hcond : decide (p.1 ≠ k) = true := by simp [hp]
      rw [hcond]
      by_cases hp' : p.1 = k'
      · simp [alGet, List.find?, hp']
      · have h1 : (decide (p.1 = k')) = false := by simp [hp']
        simp only [alGet, List.find?, h1, cond_false] at ih ⊢
        exact ih

/-! ## C9: cache loading never fails -/

/-- C9: loading the cache never raises (the embedding is a total
function into `CacheState`), and a missing file, an unparseable file,
a payload the decoder raises on, and a schema version different from
`SchemaVersion` all yield the empty state: current schema version and
no sources. -/
theorem loadCache_failure_yields_empty (now : Int) (contents : CacheFileContents)
    (h : loadFailure now contents) :
    loadCache now contents = emptyCacheState now ∧
      (loadCache now contents).schema_version = SchemaVersion ∧
      (loadCache now contents).sources = [] := by
  have hempty : loadCache now contents = emptyCacheState now := by
    cases contents with
    | missing => rfl
    | unparseable => rfl
    | parsed j =>
      simp only [loadCache]
      simp only [loadFailure] at h
      cases hd : decodeCache now j with
      | none => rfl
      | some cache =>
        rw [hd] at h
        simp [h]
  exact ⟨hempty, by rw [hempty]; rfl, by rw [hempty]; rfl⟩

theorem loadCache_failure_yields_empty_witness :
    loadFailure 0 (CacheFileContents.parsed (Json.num 3)) ∧
      loadCache 0 (CacheFileContents.parsed (Json.num 3)) = emptyCacheState 0 := by
  refine ⟨by decide, ?_⟩
  exact (loadCache_failure_yields_empty 0 (CacheFileContents.parsed (Json.num 3))
    (by decide)).1

/-! ## C7: URL refresh failure handling -/

/-- C7: on a timeout the record is retained with `fetch_status =
"timeout"`; on a network error, an unexpected error, or any status
other than 200 and 304 it is retained with `fetch_status = "error"`;
in every case `next_check_at` becomes `now + runtime_refresh_tick`,
the step reports `changed = true` (so the new backoff is persisted),
and no other field of the record or its url metadata is modified. -/
theorem refreshSingleUrl_failure_backoff (cfg : KnowledgeBaseSettings)
    (record : CacheRecord) (u : UrlMetadata) (hu : record.url = some u)
    (fetchRes : Option String) (now : Int) :
    (refreshSingleUrl cfg record .timeout fetchRes now =
      ({ record with url := some { u with
          fetch_status := "timeout",
          next_check_at := formatRfc3339 (now + cfg.runtime_refresh_tick_seconds) } },
        true)) ∧
    (refreshSingleUrl cfg record .clientError fetchRes now =
      ({ record with url := some { u with
          fetch_status := "error",
          next_check_at := formatRfc3339 (now + cfg.runtime_refresh_tick_seconds) } },
        true)) ∧
    (refreshSingleUrl cfg record .unexpectedError fetchRes now =
      ({ record with url := some { u with
          fetch_status := "error",
          next_check_at := formatRfc3339 (now + cfg.runtime_refresh_tick_seconds) } },
        true)) ∧
    (∀ status etag lastModified, status ≠ 200 → status ≠ 304 →
      refreshSingleUrl cfg record (.ok status etag lastModified) fetchRes now =
        ({ record with url := some { u with
            fetch_status := "error",
            next_check_at := formatRfc3339 (now + cfg.runtime_refresh_tick_seconds) } },
          true)) := by
  refine ⟨?_, ?_, ?_, ?_⟩
  · simp [refreshSingleUrl, hu, markUrlFailure]
  · simp [refreshSingleUrl, hu, markUrlFailure]
  · simp [refreshSingleUrl, hu, markUrlFailure]
  · intro status etag lastModified h200 h304
    simp [refreshSingleUrl, hu, markUrlFailure, h304, h200]

theorem refreshSingleUrl_failure_backoff_witness :
    (⟨"u", "t0", none, none, "success", "t1"⟩ : UrlMetadata) =
        (⟨"u", "t0", none, none, "success", "t1"⟩ : UrlMetadata) ∧
      refreshSingleUrl ⟨3600, 1, 60⟩
          { source_type := "url", content_hash := "h", summary_text := "S",
            last_indexed_at := "t", url := some ⟨"u", "t0", none, none, "success", "t1"⟩ }
          (.ok 500 none none) none 0 =
        ({ source_type := "url", content_hash := "h", summary_text := "S",
           last_indexed_at := "t",
           url := some ⟨"u", "t0", none, none, "error", formatRfc3339 60⟩ }, true) := by
  refine ⟨rfl, ?_⟩
  exact (refreshSingleUrl_failure_backoff ⟨3600, 1, 60⟩
    { source_type := "url", content_hash := "h", summary_text := "S",
      last_indexed_at := "t", url := some ⟨"u", "t0", none, none, "success", "t1"⟩ }
    ⟨"u", "t0", none, none, "success", "t1"⟩ rfl none 0).2.2.2 500 none none
    (by decide) (by decide)

/-! ## C5: file change detection -/

/-- C5: for a cached file record, equal `(size_bytes, mtime_ns)` means
the step does nothing at all and never reads the file (so a content
change with identical size and mtime is invisible); a differing stat
reads the file, and on a successful read the record's new
`summary_pending` is `hash differs || was already pending`, its
`FileMetadata` is always replaced by the current stat, its
`content_hash` becomes the hash of the text just read, and no other
field changes. -/
theorem processFileSource_change_detection (cache : CacheState) (relPath : String)
    (r : CacheRecord) (fm : FileMetadata) (st : Stat) (readRes : Option String) (now : Int)
    (hrec : alGet cache.sources relPath = some r)
    (htype : r.source_type = "file")
    (hfm : r.file = some fm) :
    (fm.size_bytes = st.st_size ∧ fm.mtime_ns = st.st_mtime_ns →
      processFileSource cache relPath (some st) readRes now = ⟨cache, false, false⟩) ∧
    (¬(fm.size_bytes = st.st_size ∧ fm.mtime_ns = st.st_mtime_ns) →
      (processFileSource cache relPath (some st) readRes now).fileRead = true ∧
      ∀ text, readRes = some text →
        ∃ r2, processFileSource cache relPath (some st) readRes now =
            ⟨{ cache with sources := alSet cache.sources relPath r2 }, true, true⟩ ∧
          r2.summary_pending = ((hashText text != r.content_hash) || r.summary_pending) ∧
          r2.file = some ⟨relPath, st.st_size, st.st_mtime_ns⟩ ∧
          r2.content_hash = hashText text ∧
          r2.summary_text = r.summary_text ∧
          r2.source_type = r.source_type ∧
          r2.last_indexed_at = r.last_indexed_at ∧
          r2.url = r.url) := by
  constructor
  · intro hsame
    simp [processFileSource, hrec, htype, hfm, hsame.1, hsame.2]
  · intro hdiff
    have hne : ¬(fm.size_bytes = st.st_size ∧ fm.mtime_ns = st.st_mtime_ns) := hdiff
    constructor
    · simp only [processFileSource, hrec, htype, hfm]
      simp only [ne_eq, not_true_eq_false, if_false, Option.getD_some]
      rw [if_neg hne]
      cases readRes with
      | none => rfl
      | some text =>
        simp only
        split <;> rfl
    · intro text htext
      subst htext
      by_cases hpend : hashText text ≠ r.content_hash ∨ r.summary_pending = true
      · refine ⟨{ r with
            file := some ⟨relPath, st.st_size, st.st_mtime_ns⟩,
            content_hash := hashText text,
            summary_pending := true }, ?_, ?_, rfl, rfl, rfl, rfl, rfl, rfl⟩
        · simp only [processFileSource, hrec, htype, hfm]
          simp only [ne_eq, not_true_eq_false, if_false, Option.getD_some]
          rw [if_neg hne]
          simp only [if_pos hpend]
        · rcases hpend with hh | hh
          · simp [hh]
          · simp [hh]
      · push_neg at hpend
        refine ⟨{ r with file := some ⟨relPath, st.st_size, st.st_mtime_ns⟩ }, ?_, ?_,
          rfl, ?_, rfl, rfl, rfl, rfl⟩
        · simp only [processFileSource, hrec, htype, hfm]
          simp only [ne_eq, not_true_eq_false, if_false, Option.getD_some]
          rw [if_neg hne]
          rw [if_neg (by push_neg; exact ⟨hpend.1, by simpa using hpend.2⟩)]
        · simp [hpend.1, Bool.eq_false_iff.mpr (by simpa using hpend.2)]
        · exact hpend.1.symm

theorem processFileSource_change_detection_witness :
    alGet exFileCache.sources "a.md" = some exFileRecord ∧
    processFileSource exFileCache "a.md" (some ⟨3, 100⟩) none 0 =
      ⟨exFileCache, false, false⟩ := by
  refine ⟨by decide, ?_⟩
  exact (processFileSource_change_detection exFileCache "a.md" exFileRecord
    ⟨"a.md", 3, 100⟩ ⟨3, 100⟩ none 0 (by decide) rfl rfl).1 ⟨rfl, rfl⟩

/-! ## C10: text normalization and hashing -/

theorem replaceCrlf_cons_ne (c : Char) (rest : List Char) (h : c ≠ '\r') :
    replaceCrlf (c :: rest) = c :: replaceCrlf rest := by
  simp [replaceCrlf, h]

theorem replaceCr_cons_ne (c : Char) (rest : List Char) (h : c ≠ '\r') :
    replaceCr (c :: rest) = c :: replaceCr rest := by
  simp [replaceCr, h]

theorem specSplitLines_cons_ne (c : Char) (rest : List Char) (hr : c ≠ '\r') (hn : c ≠ '\n') :
    specSplitLines (c :: rest) =
      match specSplitLines rest with
      | [] => [[c]]
      | h :: t => (c :: h) :: t := by
  simp [specSplitLines, hr, hn]

theorem splitNl_cons (c : Char) (l : List Char) :
    splitNl (c :: l) =
      if c = '\n' then [] :: splitNl l
      else match splitNl l with
        | [] => [[c]]
        | h :: t => (c :: h) :: t := rfl

/-- The two replaces followed by `split("\n")` agree with the spec's
single-pass CRLF / CR / LF line splitter. -/
theorem splitNl_replace : ∀ l, splitNl (replaceCr (replaceCrlf l)) = specSplitLines l := by
  intro l
  induction l with
  | nil => rfl
  | cons c rest ih =>
    by_cases hr : c = '\r'
    · subst hr
      cases rest with
      | nil => rfl
      | cons c2 rest2 =>
        by_cases hn : c2 = '\n'
        · subst hn
          have h1 : replaceCrlf ('\r' :: '\n' :: rest2) = '\n' :: replaceCrlf rest2 := rfl
          rw [h1]
          rw [replaceCr_cons_ne '\n' _ (by decide)]
          have h3 : splitNl ('\n' :: replaceCr (replaceCrlf rest2)) =
              [] :: splitNl (replaceCr (replaceCrlf rest2)) := rfl
          rw [h3]
          have h4 : specSplitLines ('\r' :: '\n' :: rest2) = [] :: specSplitLines rest2 := rfl
          rw [h4]
          rw [replaceCrlf_cons_ne '\n' _ (by decide),
            replaceCr_cons_ne '\n' _ (by decide)] at ih
          have h7 : specSplitLines ('\n' :: rest2) = [] :: specSplitLines rest2 := rfl
          rw [h7] at ih
          have h8 : splitNl ('\n' :: replaceCr (replaceCrlf rest2)) =
              [] :: splitNl (replaceCr (replaceCrlf rest2)) := rfl
          rw [h8] at ih
          exact ih
        · have h1 : replaceCrlf ('\r' :: c2 :: rest2) = '\r' :: replaceCrlf (c2 :: rest2) := by
            simp [replaceCrlf, hn]
          rw [h1]
          have h2 : replaceCr ('\r' :: replaceCrlf (c2 :: rest2)) =
              '\n' :: replaceCr (replaceCrlf (c2 :: rest2)) := rfl
          rw [h2]
          have h3 : splitNl ('\n' :: replaceCr (replaceCrlf (c2 :: rest2))) =
              [] :: splitNl (replaceCr (replaceCrlf (c2 :: rest2))) := rfl
          rw [h3, ih]
          have h4 : specSplitLines ('\r' :: c2 :: rest2) = [] :: specSplitLines (c2 :: rest2) := by
            simp [specSplitLines, hn]
          rw [h4]
    · by_cases hn : c = '\n'
      · subst hn
        rw [replaceCrlf_cons_ne '\n' _ (by decide), replaceCr_cons_ne '\n' _ (by decide)]
        have h3 : splitNl ('\n' :: replaceCr (replaceCrlf rest)) =
            [] :: splitNl (replaceCr (replaceCrlf rest)) := rfl
        rw [h3, ih]
        rfl
      · rw [replaceCrlf_cons_ne c _ hr, replaceCr_cons_ne c _ hr, splitNl_cons, if_neg hn, ih,
          specSplitLines_cons_ne c rest hr hn]

theorem dropWhile_append' {α : Type} (p : α → Bool) (l1 l2 : List α) :
    (l1 ++ l2).dropWhile p =
      if (l1.dropWhile p).isEmpty then l2.dropWhile p else l1.dropWhile p ++ l2 := by
  induction l1 with
  | nil => simp
  | cons a t ih =>
    by_cases hp : p a
    · simp [List.dropWhile_cons, hp, ih]
    · simp [List.dropWhile_cons, hp]

/-- The source's pop-from-the-right of empty lines agrees with the
right-fold formulation used in the spec-side normalization. -/
theorem dropTrailing_foldr (lines : List (List Char)) :
    (lines.reverse.dropWhile List.isEmpty).reverse =
      lines.foldr (fun line acc => if line = [] ∧ acc = [] then [] else line :: acc) [] := by
  induction lines with
  | nil => rfl
  | cons x t ih =>
    rw [List.foldr_cons, List.reverse_cons, dropWhile_append']
    by_cases hd : (t.reverse.dropWhile List.isEmpty).isEmpty
    · have hFt :
          t.foldr (fun line acc => if line = [] ∧ acc = [] then [] else line :: acc) [] = [] := by
        rw [← ih]
        simp only [List.isEmpty_iff] at hd
        simp [hd]
      rw [if_pos hd, hFt]
      by_cases hx : x.isEmpty
      · have hx' : x = [] := by simpa [List.isEmpty_iff] using hx
        simp [List.dropWhile, hx, hx']
      · have hx' : ¬ x = [] := by simpa [List.isEmpty_iff] using hx
        simp [List.dropWhile, hx, hx']
    · have hFt :
          t.foldr (fun line acc => if line = [] ∧ acc = [] then [] else line :: acc) [] ≠ [] := by
        rw [← ih]
        simp only [List.isEmpty_iff] at hd
        simpa using hd
      rw [if_neg hd]
      rw [List.reverse_append]
      simp only [List.reverse_cons, List.reverse_nil, List.nil_append, List.singleton_append]
      rw [ih]
      rw [if_neg (by simp [hFt])]

/-- The source normalization equals the spec-worded normalization. -/
theorem normalizeText_eq_spec (text : String) : normalizeText text = normalizeSpec text := by
  show String.mk _ = String.mk _
  rw [splitNl_replace, dropTrailing_foldr]

/-- C10: for every input string, `_hash_text` is the lowercase hex
sha256 of the UTF-8 bytes of the normalization of the string, where
normalization replaces CRLF and CR with LF, trims trailing whitespace
from each line, and drops leading and trailing empty lines (stated
through the independently phrased `normalizeSpec`). -/
theorem hashText_is_sha256_of_normalized (text : String) :
    hashText text = hexLower (sha256 (utf8Bytes (normalizeSpec text))) := by
  unfold hashText
  rw [normalizeText_eq_spec]

/-! ## C8: codec round-trip -/

theorem wfOptStr_cases (j : Json) (h : wfOptStr j = true) :
    j = Json.null ∨ ∃ s, j = Json.str s := by
  cases j <;> simp_all [wfOptStr]

theorem ofList_keys : ∀ (m : List (String × Json)),
    (JsonFields.ofList m).keys = m.map Prod.fst
  | [] => rfl
  | p :: t => by simp [JsonFields.ofList, JsonFields.keys, ofList_keys t]

theorem decodeSources_keys : ∀ (fields : JsonFields) (l : List (String × CacheRecord)),
    decodeSources fields = some l → l.map Prod.fst = fields.keys
  | .nil, l, h => by
    simp [decodeSources] at h
    subst h
    rfl
  | .cons k v t, l, h => by
    simp only [decodeSources, bind, Option.bind] at h
    cases hr : decodeRecord v with
    | none => rw [hr] at h; simp at h
    | some r =>
      rw [hr] at h
      cases ht : decodeSources t with
      | none => rw [ht] at h; simp at h
      | some lt =>
        rw [ht] at h
        simp only [pure, Option.some.injEq] at h
        subst h
        simp [JsonFields.keys, decodeSources_keys t lt ht]

theorem pyCovers_extend : ∀ (a : JsonFields) (b : JsonFields) (k : String) (v : Json),
    JsonFields.pyCovers a b = true → (∀ k', k' ∈ a.keys → k' ≠ k) →
    JsonFields.pyCovers a (.cons k v b) = true
  | .nil, _, _, _, _, _ => rfl
  | .cons k1 v1 t, b, k, v, hcov, hne => by
    simp only [JsonFields.pyCovers, Bool.and_eq_true] at hcov ⊢
    obtain ⟨h1, h2⟩ := hcov
    refine ⟨?_, pyCovers_extend t b k v h2 (fun k' hk' => hne k' (by simp [JsonFields.keys, hk']))⟩
    have hk1 : k1 ≠ k := hne k1 (by simp [JsonFields.keys])
    simp only [JsonFields.get, if_neg (fun hh : k = k1 => hk1 hh.symm)]
    exact h1

theorem decodeRecord_roundtrip (v : Json) (h : wfRecordPayload v = true) :
    ∃ r, decodeRecord v = some r ∧ Json.pyEq (encodeRecord r) v = true := by
  unfold wfRecordPayload at h
  split at h
  case h_2 => exact absurd h (by simp)
  case h_1 ch rest =>
    split at h
    case h_3 => exact absurd h (by simp)
    case h_1 f li st sp su tail =>
      rw [Bool.and_eq_true] at h
      obtain ⟨hf, htail⟩ := h
      unfold wfFilePayload at hf
      split at hf
      case h_2 => exact absurd hf (by simp)
      case h_1 mt rp sz =>
        unfold wfRecordTail at htail
        split at htail
        case h_3 => exact absurd htail (by simp)
        case h_1 =>
          refine ⟨_, rfl, ?_⟩
          simp [encodeRecord, Json.pyEq, JsonFields.ofList, JsonFields.get,
            JsonFields.sameLength, JsonFields.pyCovers, Json.truthy, decodeRecord,
            JsonFields.item, encodeOptStr, decodeUrlMeta, decodeFileMeta, pyInt,
            Json.asOptStr, Json.asStr, JsonList.pyEq]
        case h_2 u =>
          unfold wfUrlPayload at htail
          split at htail
          case h_2 => exact absurd htail (by simp)
          case h_1 e fs lf lm nc uu =>
            rw [Bool.and_eq_true] at htail
            obtain ⟨he, hlm⟩ := htail
            rcases wfOptStr_cases _ he with rfl | ⟨es, rfl⟩ <;>
              rcases wfOptStr_cases _ hlm with rfl | ⟨lms, rfl⟩ <;>
              · refine ⟨_, rfl, ?_⟩
                simp [encodeRecord, Json.pyEq, JsonFields.ofList, JsonFields.get,
                  JsonFields.sameLength, JsonFields.pyCovers, Json.truthy, decodeRecord,
                  JsonFields.item, encodeOptStr, decodeUrlMeta, decodeFileMeta, pyInt,
                  Json.asOptStr, Json.asStr, JsonList.pyEq]
    case h_2 li st sp su tail =>
      unfold wfRecordTail at h
      split at h
      case h_3 => exact absurd h (by simp)
      case h_1 =>
        refine ⟨_, rfl, ?_⟩
        simp [encodeRecord, Json.pyEq, JsonFields.ofList, JsonFields.get,
          JsonFields.sameLength, JsonFields.pyCovers, Json.truthy, decodeRecord,
          JsonFields.item, encodeOptStr, decodeUrlMeta, decodeFileMeta, pyInt,
          Json.asOptStr, Json.asStr, JsonList.pyEq]
      case h_2 u =>
        unfold wfUrlPayload at h
        split at h
        case h_2 => exact absurd h (by simp)
        case h_1 e fs lf lm nc uu =>
          rw [Bool.and_eq_true] at h
          obtain ⟨he, hlm⟩ := h
          rcases wfOptStr_cases _ he with rfl | ⟨es, rfl⟩ <;>
            rcases wfOptStr_cases _ hlm with rfl | ⟨lms, rfl⟩ <;>
            · refine ⟨_, rfl, ?_⟩
              simp [encodeRecord, Json.pyEq, JsonFields.ofList, JsonFields.get,
                JsonFields.sameLength, JsonFields.pyCovers, Json.truthy, decodeRecord,
                JsonFields.item, encodeOptStr, decodeUrlMeta, decodeFileMeta, pyInt,
                Json.asOptStr, Json.asStr, JsonList.pyEq]

theorem decodeSources_roundtrip : ∀ (fields : JsonFields), wfSources fields = true →
    ∃ l, decodeSources fields = some l ∧
      Json.pyEq (Json.obj (JsonFields.ofList (l.map (fun p => (p.1, encodeRecord p.2)))))
        (Json.obj fields) = true
  | .nil, _ => ⟨[], rfl, rfl⟩
  | .cons k v t, h => by
    simp only [wfSources, Bool.and_eq_true] at h
    obtain ⟨⟨hnodup, hrec⟩, ht⟩ := h
    obtain ⟨r, hr, hpyr⟩ := decodeRecord_roundtrip v hrec
    obtain ⟨lt, hlt, hpyl⟩ := decodeSources_roundtrip t ht
    refine ⟨(k, r) :: lt, ?_, ?_⟩
    · simp [decodeSources, hr, hlt, bind, Option.bind, pure]
    · simp only [Json.pyEq, Bool.and_eq_true] at hpyl ⊢
      obtain ⟨hlen, hcov⟩ := hpyl
      constructor
      · simpa [List.map, JsonFields.ofList, JsonFields.sameLength] using hlen
      · simp only [List.map, JsonFields.ofList, JsonFields.pyCovers, Bool.and_eq_true]
        refine ⟨?_, ?_⟩
        · simp only [JsonFields.get, if_pos rfl]
          exact hpyr
        · apply pyCovers_extend _ _ _ _ hcov
          intro k' hk'
          rw [ofList_keys, List.map_map] at hk'
          have hk2 : k' ∈ lt.map Prod.fst := by simpa using hk'
          rw [decodeSources_keys t lt hlt] at hk2
          intro hkk
          subst hkk
          exact absurd hk2 (by simpa using hnodup)

/-- C8 (amended): `encode(decode(x)) ≡ x` (Python `==`) holds for
every canonical cache payload: all encoder-written fields present with
their serialized types, keys sorted, unique source ids, `etag` /
`last_modified` possibly null.  Payloads that merely omit tolerated
optional fields decode successfully but re-encode to their canonical
completion, not to themselves (see the counterexample). -/
theorem encodeCache_decodeCache_roundtrip (now : Int) (x : Json)
    (h : wfCachePayload x = true) :
    ∃ c, decodeCache now x = some c ∧ Json.pyEq (encodeCache c) x = true := by
  unfold wfCachePayload at h
  split at h
  case h_2 => exact absurd h (by simp)
  case h_1 g v fields =>
    obtain ⟨l, hl, hpy⟩ := decodeSources_roundtrip fields h
    refine ⟨⟨v, g, l⟩, ?_, ?_⟩
    · simp [decodeCache, JsonFields.get, hl, bind, Option.bind, pure, pyInt, Json.asStr]
    · simp only [Json.pyEq, Bool.and_eq_true] at hpy
      obtain ⟨hlen, hcov⟩ := hpy
      simp [encodeCache, Json.pyEq, JsonFields.ofList, JsonFields.sameLength,
        JsonFields.pyCovers, JsonFields.get, hlen, hcov]

theorem encodeCache_decodeCache_roundtrip_witness :
    wfCachePayload exCachePayloadCanonical = true ∧
      ∃ c, decodeCache 0 exCachePayloadCanonical = some c ∧
        Json.pyEq (encodeCache c) exCachePayloadCanonical = true :=
  ⟨by decide, encodeCache_decodeCache_roundtrip 0 exCachePayloadCanonical (by decide)⟩

/-- C8 is false as stated: this payload omits only the optional
`summary_pending` field, so by the claim's own reading it is
well-formed (absent optional fields are tolerated on read) — indeed it
decodes successfully — yet the encoder always writes
`summary_pending`, so `encode(decode(x))` differs from `x`. -/
theorem encode_decode_not_identity_on_absent_optionals :
    (decodeCache 0 exCachePayloadNoPending).isSome = true ∧
      (decodeCache 0 exCachePayloadNoPending).any
        (fun c => Json.pyEq (encodeCache c) exCachePayloadNoPending) = false := by
  decide

/-! ## C4: deterministic index rendering

The central fact: comparing source ids byte-wise on their UTF-8
encodings (the spec's wording) coincides with Lean's code-point
lexicographic `≤` on strings (Python's `sorted`), because UTF-8 is
order-preserving. -/

theorem lexLeBytes_append_same (P X Y : List Nat) :
    lexLeBytes (P ++ X) (P ++ Y) = lexLeBytes X Y := by
  induction P with
  | nil => rfl
  | cons p t ih => simp [lexLeBytes, List.cons_append, ih, Nat.lt_irrefl]

set_option maxHeartbeats 1000000 in
theorem lexLe_utf8_lt (m n : Nat) (hmn : m < n) (hn : n < 1114112) (X Y : List Nat) :
    lexLeBytes (utf8Char m ++ X) (utf8Char n ++ Y) = true := by
  unfold utf8Char
  split_ifs <;>
    simp only [List.cons_append, List.nil_append] <;>
    simp only [lexLeBytes] <;>
    (repeat (first | rfl | omega | split))

set_option maxHeartbeats 1000000 in
theorem lexLe_utf8_gt (m n : Nat) (hmn : n < m) (hm : m < 1114112) (X Y : List Nat) :
    lexLeBytes (utf8Char m ++ X) (utf8Char n ++ Y) = false := by
  unfold utf8Char
  split_ifs <;>
    simp only [List.cons_append, List.nil_append] <;>
    simp only [lexLeBytes] <;>
    (repeat (first | rfl | omega | split))

theorem char_toNat_lt_limit (c : Char) : c.toNat < 1114112 := by
  rcases c.valid with h | ⟨h1, h2⟩
  · exact Nat.lt_trans h (by norm_num)
  · exact h2

theorem char_eq_of_toNat_eq (a b : Char) (h : a.toNat = b.toNat) : a = b := by
  apply Char.eq_of_val_eq
  apply UInt32.eq_of_toBitVec_eq
  apply BitVec.eq_of_toNat_eq
  exact h

theorem utf8Char_ne_nil (m : Nat) : utf8Char m ≠ [] := by
  unfold utf8Char
  split_ifs <;> simp

theorem lexLe_utf8_char_lists : ∀ (as bs : List Char),
    lexLeBytes (as.flatMap (fun c => utf8Char c.toNat)) (bs.flatMap (fun c => utf8Char c.toNat)) =
      !decide (List.Lex (· < ·) bs as)
  | [], [] => by
    have h1 : ¬ List.Lex (· < ·) ([] : List Char) ([] : List Char) :=
      List.Lex.not_nil_right _ _
    simp [List.flatMap_nil, lexLeBytes, h1]
  | [], b :: bt => by
    have h1 : ¬ List.Lex (· < ·) (b :: bt) ([] : List Char) := List.Lex.not_nil_right _ _
    simp [List.flatMap_nil, lexLeBytes, h1]
  | a :: at2, [] => by
    simp only [List.flatMap_cons, List.flatMap_nil]
    rw [decide_eq_true List.Lex.nil, Bool.not_true]
    cases hh : utf8Char a.toNat with
    | nil => exact absurd hh (utf8Char_ne_nil _)
    | cons x xs => simp [lexLeBytes]
  | a :: at2, b :: bt => by
    rcases Nat.lt_trichotomy a.toNat b.toNat with h | h | h
    · have hL : ¬ List.Lex (· < ·) (b :: bt) (a :: at2) := by
        intro hL
        cases hL with
        | rel h2 =>
          have h3 : b.toNat < a.toNat := h2
          omega
        | cons h2 => exact absurd h (by simp)
      simp only [List.flatMap_cons]
      rw [decide_eq_false hL, Bool.not_false]
      exact lexLe_utf8_lt a.toNat b.toNat h (char_toNat_lt_limit b) _ _
    · have hab : a = b := char_eq_of_toNat_eq a b h
      subst hab
      simp only [List.flatMap_cons, lexLeBytes_append_same]
      rw [lexLe_utf8_char_lists at2 bt]
      have h2 : decide (List.Lex (· < ·) (a :: bt) (a :: at2)) =
          decide (List.Lex (· < ·) bt at2) :=
        decide_eq_decide.mpr List.Lex.cons_iff
      rw [h2]
    · have hL : List.Lex (· < ·) (b :: bt) (a :: at2) := List.Lex.rel h
      simp only [List.flatMap_cons]
      rw [decide_eq_true hL, Bool.not_true]
      exact lexLe_utf8_gt a.toNat b.toNat h (char_toNat_lt_limit a) _ _

/-- Byte-wise UTF-8 comparison of strings is code-point comparison. -/
theorem lexLeBytes_utf8_eq_decide_le (s t : String) :
    lexLeBytes (utf8Bytes s) (utf8Bytes t) = decide (s ≤ t) := by
  have h0 : decide (s ≤ t) = !decide (t < s) := by
    rw [← decide_not]
    exact decide_eq_decide.mpr Iff.rfl
  have h1 : decide (t < s) = decide (List.Lex (· < ·) t.data s.data) :=
    decide_eq_decide.mpr (by
      rw [String.lt_iff_toList_lt]
      exact Iff.rfl)
  rw [h0, h1]
  exact lexLe_utf8_char_lists s.data t.data

theorem intercalate_go_cons (a s b : String) (t : List String) :
    String.intercalate.go a s (b :: t) = String.intercalate.go (a ++ s ++ b) s t := by
  simp [String.intercalate.go]

theorem intercalate_go_nil (a s : String) : String.intercalate.go a s [] = a := by
  simp [String.intercalate.go]

theorem intercalate_go_append (a s : String) : ∀ (t : List String) (x : String),
    String.intercalate.go (x ++ a) s t = x ++ String.intercalate.go a s t
  | [], x => by simp [String.intercalate.go]
  | b :: t, x => by
    rw [intercalate_go_cons, intercalate_go_cons]
    have h : x ++ a ++ s ++ b = x ++ (a ++ s ++ b) := by
      simp [String.append_assoc]
    rw [h, intercalate_go_append (a ++ s ++ b) s t x]

theorem intercalate_cons_cons (s a b : String) (t : List String) :
    String.intercalate s (a :: b :: t) = a ++ s ++ String.intercalate s (b :: t) := by
  show String.intercalate.go a s (b :: t) = a ++ s ++ String.intercalate.go b s t
  rw [intercalate_go_cons]
  have h1 : a ++ s ++ b = (a ++ s) ++ b := rfl
  calc String.intercalate.go (a ++ s ++ b) s t
      = String.intercalate.go ((a ++ s) ++ b) s t := by rw [h1]
    _ = (a ++ s) ++ String.intercalate.go b s t := intercalate_go_append b s t (a ++ s)

/-- The two sort-by-source-id orders coincide. -/
theorem sortByKey_eq_bytes : sortByKey = sortByKeyBytes := by
  funext l
  unfold sortByKey sortByKeyBytes
  have h : (fun (a b : String × String) => decide (a.1 ≤ b.1)) =
      fun (a b : String × String) => lexLeBytes (utf8Bytes a.1) (utf8Bytes b.1) := by
    funext a b
    exact (lexLeBytes_utf8_eq_decide_le a.1 b.1).symm
  rw [h]

/-- C4: the index artifact is rendered deterministically from the
cache state exactly as the claim words it: an optional configured
prefix as a leading line followed by a blank line, then one
`"{source_id}\n{summary trimmed}"` block per contributing record,
blocks joined by one blank line, grouped by `source_type` in the
configured order, and inside each group sorted ascending by source id
byte-wise on UTF-8 (`renderIndexSpec`); the io renderer is modelled
from the spec because `knowledge_cache/io.py` is not in the source
tree, and the byte-wise order is proved equal to the code-point order
the renderer sorts with. -/
theorem indexIo_renders_as_claim (cache : CacheState) (sourceTypes : List String)
    (prefixText : String) :
    writeIndexFileSpec (buildIndexEntriesIo cache sourceTypes prefixText) =
      renderIndexSpec cache sourceTypes prefixText := by
  unfold writeIndexFileSpec buildIndexEntriesIo renderIndexSpec
  rw [sortByKey_eq_bytes]
  cases hpb : (prefixText != "") with
  | false =>
    simp only [Bool.false_eq_true, if_false, List.nil_append]
  | true =>
    simp only [if_true]
    generalize (sourceTypes.flatMap _) = blocks
    cases blocks with
    | nil =>
      simp only [List.cons_append, List.nil_append]
      exact intercalate_go_nil prefixText "\n\n"
    | cons b t =>
      simp only [List.cons_append, List.nil_append]
      exact intercalate_cons_cons "\n\n" prefixText b t

/-! ## C3: duplicate source ids abort the cycle -/

theorem alGet_append {α : Type} (m1 m2 : List (String × α)) (k : String) :
    alGet (m1 ++ m2) k = match alGet m1 k with
      | some v => some v
      | none => alGet m2 k := by
  induction m1 with
  | nil => simp [alGet]
  | cons p t ih =>
    by_cases hp : p.1 = k
    · simp [alGet, List.find?, hp]
    · have h1 : (decide (p.1 = k)) = false := by simp [hp]
      simp only [List.cons_append, alGet, List.find?, h1, cond_false] at ih ⊢
      exact ih

theorem alKeys_mem_iff_isSome {α : Type} (m : List (String × α)) (k : String) :
    k ∈ alKeys m ↔ (alGet m k).isSome := by
  induction m with
  | nil => simp [alKeys, alGet]
  | cons p t ih =>
    by_cases hp : p.1 = k
    · simp [alKeys, alGet, List.find?, hp]
    · have h1 : (decide (p.1 = k)) = false := by simp [hp]
      simp only [alKeys, List.map, List.mem_cons, alGet, List.find?, h1, cond_false] at ih ⊢
      constructor
      · rintro (h | h)
        · exact absurd h.symm hp
        · exact ih.mp h
      · intro h
        exact Or.inr (ih.mpr h)

theorem discoverInner_fresh (idx : Nat) :
    ∀ (items : List (String × String)) (st : List (String × String) × List (String × Nat)),
    (∀ kv ∈ items, alGet st.1 kv.1 = none) → (alKeys items).Nodup →
    items.foldl
      (fun acc2 kv =>
        match acc2 with
        | .error e => .error e
        | .ok st2 =>
          if (alGet st2.1 kv.1).isSome then
            Except.error ("Duplicate source_id discovered: " ++ kv.1)
          else
            Except.ok (st2.1 ++ [kv], st2.2 ++ [(kv.1, idx)]))
      (Except.ok st) =
      Except.ok (st.1 ++ items, st.2 ++ items.map (fun kv => (kv.1, idx)))
  | [], st, _, _ => by simp
  | kv :: rest, st, hfresh, hnodup => by
    have h1 : alGet st.1 kv.1 = none := hfresh kv (by simp)
    simp only [List.foldl_cons, h1, Option.isSome_none, Bool.false_eq_true, if_false]
    have h2 : ∀ kv2 ∈ rest, alGet (st.1 ++ [kv]) kv2.1 = none := by
      intro kv2 hkv2
      rw [alGet_append, hfresh kv2 (by simp [hkv2])]
      have hne : kv.1 ≠ kv2.1 := by
        simp only [alKeys, List.map_cons, List.nodup_cons] at hnodup
        intro he
        exact hnodup.1 (he ▸ List.mem_map_of_mem _ hkv2)
      simp [alGet, List.find?, hne]
    have h3 : (alKeys rest).Nodup := by
      simp only [alKeys, List.map_cons, List.nodup_cons] at hnodup
      exact hnodup.2
    rw [discoverInner_fresh idx rest (st.1 ++ [kv], st.2 ++ [(kv.1, idx)]) h2 h3]
    simp

theorem discoverInner_error_absorb (idx : Nat) (e : String) :
    ∀ items : List (String × String),
    items.foldl
      (fun acc2 kv =>
        match acc2 with
        | .error e => .error e
        | .ok st2 =>
          if (alGet st2.1 kv.1).isSome then
            Except.error ("Duplicate source_id discovered: " ++ kv.1)
          else
            Except.ok (st2.1 ++ [kv], st2.2 ++ [(kv.1, idx)]))
      (Except.error e) = Except.error e
  | [] => rfl
  | kv :: rest => by
    simp only [List.foldl_cons]
    exact discoverInner_error_absorb idx e rest

theorem discoverInner_dup (idx : Nat) :
    ∀ (items : List (String × String)) (st : List (String × String) × List (String × Nat)),
    (∃ kv ∈ items, (alGet st.1 kv.1).isSome) → (alKeys items).Nodup →
    ∃ d, (alGet st.1 d).isSome ∧ d ∈ alKeys items ∧
      items.foldl
        (fun acc2 kv =>
          match acc2 with
          | .error e => .error e
          | .ok st2 =>
            if (alGet st2.1 kv.1).isSome then
              Except.error ("Duplicate source_id discovered: " ++ kv.1)
            else
              Except.ok (st2.1 ++ [kv], st2.2 ++ [(kv.1, idx)]))
        (Except.ok st) =
        Except.error ("Duplicate source_id discovered: " ++ d)
  | [], st, hex, _ => by simp at hex
  | kv :: rest, st, hex, hnodup => by
    cases hk : (alGet st.1 kv.1).isSome with
    | true =>
      have hmem : kv.1 ∈ alKeys (kv :: rest) := by
        show kv.1 ∈ kv.1 :: alKeys rest
        exact List.mem_cons_self _ _
      refine ⟨kv.1, hk, hmem, ?_⟩
      simp only [List.foldl_cons, hk, if_true]
      exact discoverInner_error_absorb idx _ rest
    | false =>
      have h1 : alGet st.1 kv.1 = none := by
        cases h2 : alGet st.1 kv.1 with
        | none => rfl
        | some v => rw [h2] at hk; simp at hk
      obtain ⟨kvw, hkvw, hpres⟩ := hex
      have hkvw2 : kvw ∈ rest := by
        rcases List.mem_cons.mp hkvw with he | hr
        · subst he
          rw [h1] at hpres
          simp at hpres
        · exact hr
      have h3 : (alKeys rest).Nodup := by
        simp only [alKeys, List.map_cons, List.nodup_cons] at hnodup
        exact hnodup.2
      have hknotin : kv.1 ∉ alKeys rest := by
        simp only [alKeys, List.map_cons, List.nodup_cons] at hnodup
        exact fun hh => hnodup.1 (by simpa [alKeys] using hh)
      have hex2 : ∃ kv2 ∈ rest, (alGet (st.1 ++ [kv]) kv2.1).isSome := by
        refine ⟨kvw, hkvw2, ?_⟩
        rw [alGet_append]
        cases h4 : alGet st.1 kvw.1 with
        | some v => simp
        | none => rw [h4] at hpres; simp at hpres
      obtain ⟨d, hd1, hd2, hd3⟩ :=
        discoverInner_dup idx rest (st.1 ++ [kv], st.2 ++ [(kv.1, idx)]) hex2 h3
      have hmem : d ∈ alKeys (kv :: rest) := by
        show d ∈ kv.1 :: alKeys rest
        exact List.mem_cons_of_mem _ hd2
      refine ⟨d, ?_, hmem, ?_⟩
      · rw [alGet_append] at hd1
        cases h5 : alGet st.1 d with
        | some v => simp
        | none =>
          rw [h5] at hd1
          have hne : kv.1 ≠ d := fun he => hknotin (he ▸ hd2)
          simp [alGet, List.find?, hne] at hd1
      · simp only [List.foldl_cons, h1, Option.isSome_none, Bool.false_eq_true, if_false]
        exact hd3

/-- C3: when two providers (e.g. the file family and the url family)
discover the same `source_id` in one cycle, `run_once` raises the
descriptive `ValueError("Duplicate source_id discovered: {id}")` from
`_discover_sources` before any write, so the previously persisted
cache and index files are returned unchanged. -/
theorem runOnce_duplicate_fails (p1 p2 : Provider) (sid : String)
    (h1 : sid ∈ alKeys p1.discovered) (h2 : sid ∈ alKeys p2.discovered)
    (hnodup1 : (alKeys p1.discovered).Nodup) (hnodup2 : (alKeys p2.discovered).Nodup)
    (llm : String → Option String) (sourceTypes : List String) (prefixText : String)
    (now : Int) (fs : FilesState) :
    ∃ d, d ∈ alKeys p1.discovered ∧ d ∈ alKeys p2.discovered ∧
      (runOnce [p1, p2] llm sourceTypes prefixText now fs).1 =
        Except.error ("Duplicate source_id discovered: " ++ d) ∧
      (runOnce [p1, p2] llm sourceTypes prefixText now fs).2.1 = fs := by
  have hfresh : ∀ kv ∈ p1.discovered,
      alGet (([], []) : List (String × String) × List (String × Nat)).1 kv.1 = none := by
    intro kv _
    rfl
  have hfold1 := discoverInner_fresh 0 p1.discovered ([], []) hfresh hnodup1
  have hex : ∃ kv ∈ p2.discovered,
      (alGet (([] : List (String × String)) ++ p1.discovered) kv.1).isSome := by
    obtain ⟨v2, hv2⟩ : ∃ v, (sid, v) ∈ p2.discovered := by
      rcases List.mem_map.mp h2 with ⟨p, hp, he⟩
      refine ⟨p.2, ?_⟩
      rw [← he]
      simpa using hp
    refine ⟨(sid, v2), hv2, ?_⟩
    rw [List.nil_append]
    exact (alKeys_mem_iff_isSome _ _).mp h1
  obtain ⟨d, hd1, hd2, hd3⟩ := discoverInner_dup 1 p2.discovered
    (([] : List (String × String)) ++ p1.discovered,
      ([] : List (String × Nat)) ++ p1.discovered.map (fun kv => (kv.1, 0))) hex hnodup2
  have hdisc : discoverSources [p1, p2] =
      Except.error ("Duplicate source_id discovered: " ++ d) := by
    have hsplit : discoverSources [p1, p2] =
        match p1.discovered.foldl
          (fun acc2 kv =>
            match acc2 with
            | .error e => .error e
            | .ok st2 =>
              if (alGet st2.1 kv.1).isSome then
                Except.error ("Duplicate source_id discovered: " ++ kv.1)
              else
                Except.ok (st2.1 ++ [kv], st2.2 ++ [(kv.1, 0)]))
          (Except.ok ([], [])) with
        | .error e => .error e
        | .ok st =>
          p2.discovered.foldl
            (fun acc2 kv =>
              match acc2 with
              | .error e => .error e
              | .ok st2 =>
                if (alGet st2.1 kv.1).isSome then
                  Except.error ("Duplicate source_id discovered: " ++ kv.1)
                else
                  Except.ok (st2.1 ++ [kv], st2.2 ++ [(kv.1, 1)]))
            (Except.ok st) := rfl
    rw [hsplit, hfold1]
    exact hd3
  have hd1mem : d ∈ alKeys p1.discovered := by
    rw [List.nil_append] at hd1
    exact (alKeys_mem_iff_isSome _ _).mpr hd1
  refine ⟨d, hd1mem, hd2, ?_, ?_⟩
  · unfold runOnce
    rw [hdisc]
  · unfold runOnce
    rw [hdisc]

theorem runOnce_duplicate_fails_witness :
    ("x" ∈ alKeys exProviderA.discovered ∧ "x" ∈ alKeys exProviderB.discovered ∧
        (alKeys exProviderA.discovered).Nodup ∧ (alKeys exProviderB.discovered).Nodup) ∧
      ∃ d, d ∈ alKeys exProviderA.discovered ∧ d ∈ alKeys exProviderB.discovered ∧
        (runOnce [exProviderA, exProviderB] (fun _ => none) ["file", "url"] "" 0
            exFilesState).1 =
          Except.error ("Duplicate source_id discovered: " ++ d) ∧
        (runOnce [exProviderA, exProviderB] (fun _ => none) ["file", "url"] "" 0
            exFilesState).2.1 = exFilesState :=
  ⟨⟨by decide, by decide, by decide, by decide⟩,
    runOnce_duplicate_fails exProviderA exProviderB "x" (by decide) (by decide)
      (by decide) (by decide) (fun _ => none) ["file", "url"] "" 0 exFilesState⟩

/-! ## C1: which records the index includes -/

theorem alNodup_unique {α : Type} : ∀ (m : List (String × α)), (alKeys m).Nodup →
    ∀ (k : String) (r1 r2 : α), (k, r1) ∈ m → (k, r2) ∈ m → r1 = r2
  | [], _, _, _, _, h1, _ => by simp at h1
  | p :: t, hn, k, r1, r2, h1, h2 => by
    have hn1 : p.1 ∉ alKeys t := by
      simp only [alKeys, List.map_cons, List.nodup_cons] at hn
      exact hn.1
    have hn2 : (alKeys t).Nodup := by
      simp only [alKeys, List.map_cons, List.nodup_cons] at hn
      exact hn.2
    rcases List.mem_cons.mp h1 with he1 | ht1 <;> rcases List.mem_cons.mp h2 with he2 | ht2
    · rw [← he1] at he2
      exact ((Prod.mk.injEq _ _ _ _).mp he2).2.symm
    · exfalso
      apply hn1
      rw [← he1]
      simpa [alKeys] using List.mem_map_of_mem Prod.fst ht2
    · exfalso
      apply hn1
      rw [← he2]
      simpa [alKeys] using List.mem_map_of_mem Prod.fst ht1
    · exact alNodup_unique t hn2 k r1 r2 ht1 ht2

theorem mem_insertSorted {α : Type} (le : α → α → Bool) (x a : α) :
    ∀ (l : List α), a ∈ insertSorted le x l ↔ a = x ∨ a ∈ l
  | [] => by simp [insertSorted]
  | y :: ys => by
    by_cases h : le x y
    · simp [insertSorted, h]
    · simp only [insertSorted, h, Bool.false_eq_true, if_false, List.mem_cons,
        mem_insertSorted le x a ys]
      tauto

theorem mem_stableSort {α : Type} (le : α → α → Bool) (a : α) :
    ∀ (l : List α), a ∈ stableSort le l ↔ a ∈ l
  | [] => Iff.rfl
  | x :: xs => by
    simp only [stableSort, mem_insertSorted, List.mem_cons, mem_stableSort le a xs]

/-- C1 (amended): with unique source ids, a record contributes a
block to the index artifact if and only if its trimmed `summary_text`
is non-empty; `summary_pending` is not consulted, so a pending record
whose earlier summary is still stored keeps appearing in the index. -/
theorem indexPairs_mem_iff (cache : CacheState) (sid : String) (r : CacheRecord)
    (hnodup : (alKeys cache.sources).Nodup)
    (hmem : (sid, r) ∈ cache.sources)
    (htype : r.source_type = "file" ∨ r.source_type = "url") :
    ((sid, pyStripS r.summary_text) ∈ indexPairs cache ↔ pyStripS r.summary_text ≠ "") := by
  unfold indexPairs
  simp only
  constructor
  · intro hin
    rcases List.mem_append.mp hin with hf | hf
    · rw [sortByKey, mem_stableSort] at hf
      obtain ⟨q, hq, hfq⟩ := List.mem_filterMap.mp hf
      by_cases hs0 : pyStripS q.2.summary_text = ""
      · simp [hs0] at hfq
      · by_cases hft : q.2.source_type = "file"
        · simp [hs0, hft] at hfq
          have hq2 : q.2 = r := by
            refine alNodup_unique _ hnodup sid q.2 r ?_ hmem
            rw [← hfq.1]
            simpa using hq
          rw [hq2] at hs0
          exact hs0
        · simp [hs0, hft] at hfq
    · rw [sortByKey, mem_stableSort] at hf
      obtain ⟨q, hq, hfq⟩ := List.mem_filterMap.mp hf
      by_cases hs0 : pyStripS q.2.summary_text = ""
      · simp [hs0] at hfq
      · by_cases hft : q.2.source_type = "url"
        · simp [hs0, hft] at hfq
          have hq2 : q.2 = r := by
            refine alNodup_unique _ hnodup sid q.2 r ?_ hmem
            rw [← hfq.1]
            simpa using hq
          rw [hq2] at hs0
          exact hs0
        · simp [hs0, hft] at hfq
  · intro hne
    rcases htype with ht | ht
    · apply List.mem_append.mpr
      left
      rw [sortByKey, mem_stableSort]
      exact List.mem_filterMap.mpr ⟨(sid, r), hmem, by simp [hne, ht]⟩
    · apply List.mem_append.mpr
      right
      rw [sortByKey, mem_stableSort]
      exact List.mem_filterMap.mpr ⟨(sid, r), hmem, by simp [hne, ht]⟩

theorem indexPairs_mem_iff_witness :
    ((alKeys exFileCache.sources).Nodup ∧ ("a.md", exFileRecord) ∈ exFileCache.sources ∧
        (exFileRecord.source_type = "file" ∨ exFileRecord.source_type = "url")) ∧
      (("a.md", pyStripS exFileRecord.summary_text) ∈ indexPairs exFileCache ↔
        pyStripS exFileRecord.summary_text ≠ "") :=
  ⟨⟨by decide, by decide, by decide⟩,
    indexPairs_mem_iff exFileCache "a.md" exFileRecord (by decide) (by decide) (by decide)⟩

set_option maxRecDepth 8000 in
/-- C1 is false as stated: starting from the empty cache, one cycle
discovers `a.md` ("v1", summarized to "S"); a second cycle sees the
file changed ("v2") while the summarizer fails, so
`_process_file_source` persists the record with `summary_pending =
true` and the old summary "S" — and `_build_index_entries` still emits
its block, because it filters only on the trimmed summary. -/
theorem C1_counterexample_pending_record_contributes :
    ((alGet exSecondRun.1.sources "a.md").map (fun r => r.summary_pending)).getD false = true ∧
      ((alGet exSecondRun.1.sources "a.md").map
        (fun r => (("a.md", pyStripS r.summary_text) ∈ indexPairs exSecondRun.1 : Bool))).getD
          false = true ∧
      exSecondRun.1 ∈ exSecondRun.2.1 := by
  refine ⟨?_, ?_, ?_⟩ <;> decide

/-! ## C2: non-pending records carry a summary -/

theorem mem_alSet {α : Type} : ∀ (m : List (String × α)) (k : String) (v : α) (p : String × α),
    p ∈ alSet m k v → p = (k, v) ∨ p ∈ m
  | [], k, v, p, h => by
    simp [alSet] at h
    exact Or.inl h
  | q :: t, k, v, p, h => by
    simp only [alSet] at h
    by_cases hq : q.1 = k
    · rw [if_pos hq] at h
      rcases List.mem_cons.mp h with he | ht
      · exact Or.inl he
      · exact Or.inr (List.mem_cons_of_mem _ ht)
    · rw [if_neg hq] at h
      rcases List.mem_cons.mp h with he | ht
      · exact Or.inr (he ▸ List.mem_cons_self _ _)
      · rcases mem_alSet t k v p ht with h1 | h1
        · exact Or.inl h1
        · exact Or.inr (List.mem_cons_of_mem _ h1)

theorem alGet_some_mem {α : Type} : ∀ (m : List (String × α)) (k : String) (v : α),
    alGet m k = some v → (k, v) ∈ m
  | [], _, _, h => by simp [alGet] at h
  | q :: t, k, v, h => by
    by_cases hq : q.1 = k
    · have h1 : (decide (q.1 = k)) = true := by simp [hq]
      simp only [alGet, List.find?, h1, cond_true, Option.map_some] at h
      have h2 : q.2 = v := Option.some.inj h
      have h3 : (k, v) = q := by rw [← hq, ← h2]
      rw [h3]
      exact List.mem_cons_self _ _
    · have h1 : (decide (q.1 = k)) = false := by simp [hq]
      simp only [alGet, List.find?, h1, cond_false] at h
      exact List.mem_cons_of_mem _ (alGet_some_mem t k v h)

theorem inv_alSet (cache : CacheState) (k : String) (v : CacheRecord)
    (hinv : pendingInvariant cache)
    (hv : v.summary_pending = false → v.summary_text ≠ "") :
    pendingInvariant { cache with sources := alSet cache.sources k v } := by
  intro p hp hpend
  rcases mem_alSet cache.sources k v p hp with he | hm
  · rw [he] at hpend ⊢
    exact hv hpend
  · exact hinv p hm hpend

theorem inv_alPop (cache : CacheState) (k : String)
    (hinv : pendingInvariant cache) :
    pendingInvariant { cache with sources := alPop cache.sources k } := by
  intro p hp hpend
  exact hinv p (List.mem_of_mem_filter hp) hpend

theorem inv_persistSnap (cache : CacheState) (now : Int)
    (hinv : pendingInvariant cache) : pendingInvariant (persistSnap cache now) := by
  intro p hp hpend
  exact hinv p (by simpa [persistSnap] using hp) hpend

theorem removeStale_inv (currentIds : List String) (now : Int) :
    ∀ (keys : List String) (acc : CacheState × List CacheState),
    pendingInvariant acc.1 → (∀ c ∈ acc.2, pendingInvariant c) →
    pendingInvariant ((keys.foldl
        (fun acc sid =>
          if sid ∈ currentIds then acc
          else
            let c := persistSnap { acc.1 with sources := alPop acc.1.sources sid } now
            (c, acc.2 ++ [c]))
        acc).1) ∧
      ∀ c ∈ (keys.foldl
        (fun acc sid =>
          if sid ∈ currentIds then acc
          else
            let c := persistSnap { acc.1 with sources := alPop acc.1.sources sid } now
            (c, acc.2 ++ [c]))
        acc).2, pendingInvariant c
  | [], acc, h1, h2 => ⟨h1, h2⟩
  | sid :: rest, acc, h1, h2 => by
    simp only [List.foldl_cons]
    by_cases hmem : sid ∈ currentIds
    · rw [if_pos hmem]
      exact removeStale_inv currentIds now rest acc h1 h2
    · rw [if_neg hmem]
      refine removeStale_inv currentIds now rest _ ?_ ?_
      · exact inv_persistSnap _ _ (inv_alPop _ _ h1)
      · intro c hc
        rcases List.mem_append.mp hc with hc1 | hc2
        · exact h2 c hc1
        · rw [List.mem_singleton.mp hc2]
          exact inv_persistSnap _ _ (inv_alPop _ _ h1)

theorem removeStale_inv2 (cache : CacheState) (currentIds : List String) (now : Int)
    (hinv : pendingInvariant cache) :
    pendingInvariant (removeStale cache currentIds now).1 ∧
      ∀ c ∈ (removeStale cache currentIds now).2, pendingInvariant c := by
  unfold removeStale
  exact removeStale_inv currentIds now (alKeys cache.sources) (cache, []) hinv (by simp)

theorem processFileSource_inv (cache : CacheState) (relPath : String) (stat : Option Stat)
    (readRes : Option String) (now : Int) (hinv : pendingInvariant cache) :
    pendingInvariant (processFileSource cache relPath stat readRes now).cache := by
  unfold processFileSource
  cases stat with
  | none => exact hinv
  | some st =>
    cases hrec : alGet cache.sources relPath with
    | none =>
      cases readRes with
      | none => exact hinv
      | some text =>
        exact inv_alSet cache relPath _ hinv (by intro h; simp at h)
    | some record =>
      dsimp only
      by_cases htype : record.source_type ≠ "file"
      · rw [if_pos htype]
        exact inv_alPop cache relPath hinv
      · rw [if_neg htype]
        by_cases hsame : (record.file.getD ⟨relPath, st.st_size, st.st_mtime_ns⟩).size_bytes =
            st.st_size ∧ (record.file.getD ⟨relPath, st.st_size, st.st_mtime_ns⟩).mtime_ns =
            st.st_mtime_ns
        · rw [if_pos hsame]
          exact hinv
        · rw [if_neg hsame]
          cases readRes with
          | none => exact hinv
          | some text =>
            dsimp only
            by_cases hchanged : hashText text ≠ record.content_hash ∨
                record.summary_pending = true
            · rw [if_pos hchanged]
              exact inv_alSet cache relPath _ hinv (by intro h; simp at h)
            · rw [if_neg hchanged]
              refine inv_alSet cache relPath _ hinv ?_
              intro hpend hsum
              exact hinv (relPath, record) (alGet_some_mem _ _ _ hrec) hpend hsum

theorem processFileSources_inv (env : CycleEnv) (now : Int) :
    ∀ (paths : List String) (acc : CacheState × List CacheState),
    pendingInvariant acc.1 → (∀ c ∈ acc.2, pendingInvariant c) →
    pendingInvariant ((paths.foldl
        (fun acc relPath =>
          let r := processFileSource acc.1 relPath (env.fileStat relPath)
            (env.fileRead relPath) now
          if r.persisted then
            let c := persistSnap r.cache now
            (c, acc.2 ++ [c])
          else (r.cache, acc.2))
        acc).1) ∧
      ∀ c ∈ (paths.foldl
        (fun acc relPath =>
          let r := processFileSource acc.1 relPath (env.fileStat relPath)
            (env.fileRead relPath) now
          if r.persisted then
            let c := persistSnap r.cache now
            (c, acc.2 ++ [c])
          else (r.cache, acc.2))
        acc).2, pendingInvariant c
  | [], acc, h1, h2 => ⟨h1, h2⟩
  | relPath :: rest, acc, h1, h2 => by
    simp only [List.foldl_cons]
    have hstep := processFileSource_inv acc.1 relPath (env.fileStat relPath)
      (env.fileRead relPath) now h1
    by_cases hp : (processFileSource acc.1 relPath (env.fileStat relPath)
        (env.fileRead relPath) now).persisted
    · simp only [hp, if_true]
      refine processFileSources_inv env now rest _ (inv_persistSnap _ _ hstep) ?_
      intro c hc
      rcases List.mem_append.mp hc with hc1 | hc2
      · exact h2 c hc1
      · rw [List.mem_singleton.mp hc2]
        exact inv_persistSnap _ _ hstep
    · simp only [hp, Bool.false_eq_true, if_false]
      exact processFileSources_inv env now rest _ hstep h2

theorem createUrlSource_inv (cfg : KnowledgeBaseSettings) (env : CycleEnv)
    (cache : CacheState) (url : String) (now : Int) (hinv : pendingInvariant cache) :
    pendingInvariant (createUrlSource cfg env cache url now).1 := by
  unfold createUrlSource
  cases env.urlFetch url with
  | none => exact hinv
  | some text => exact inv_alSet cache url _ hinv (by intro h; simp at h)

theorem createUrlSources_inv (cfg : KnowledgeBaseSettings) (env : CycleEnv) (now : Int) :
    ∀ (urls : List String) (acc : CacheState × List CacheState),
    pendingInvariant acc.1 → (∀ c ∈ acc.2, pendingInvariant c) →
    pendingInvariant ((urls.foldl
        (fun acc url =>
          match alGet acc.1.sources url with
          | some _ => acc
          | none =>
            let r := createUrlSource cfg env acc.1 url now
            if r.2 then
              let c := persistSnap r.1 now
              (c, acc.2 ++ [c])
            else (r.1, acc.2))
        acc).1) ∧
      ∀ c ∈ (urls.foldl
        (fun acc url =>
          match alGet acc.1.sources url with
          | some _ => acc
          | none =>
            let r := createUrlSource cfg env acc.1 url now
            if r.2 then
              let c := persistSnap r.1 now
              (c, acc.2 ++ [c])
            else (r.1, acc.2))
        acc).2, pendingInvariant c
  | [], acc, h1, h2 => ⟨h1, h2⟩
  | url :: rest, acc, h1, h2 => by
    simp only [List.foldl_cons]
    cases hg : alGet acc.1.sources url with
    | some r => exact createUrlSources_inv cfg env now rest acc h1 h2
    | none =>
      have hstep := createUrlSource_inv cfg env acc.1 url now h1
      dsimp only
      by_cases hp : (createUrlSource cfg env acc.1 url now).2
      · simp only [hp, if_true]
        refine createUrlSources_inv cfg env now rest _ (inv_persistSnap _ _ hstep) ?_
        intro c hc
        rcases List.mem_append.mp hc with hc1 | hc2
        · exact h2 c hc1
        · rw [List.mem_singleton.mp hc2]
          exact inv_persistSnap _ _ hstep
      · simp only [hp, Bool.false_eq_true, if_false]
        exact createUrlSources_inv cfg env now rest _ hstep h2

theorem markUrlFailure_inv (cfg : KnowledgeBaseSettings) (record : CacheRecord)
    (status : String) (now : Int)
    (hrec : record.summary_pending = false → record.summary_text ≠ "") :
    (markUrlFailure cfg record status now).1.summary_pending = false →
      (markUrlFailure cfg record status now).1.summary_text ≠ "" := by
  unfold markUrlFailure
  cases record.url with
  | none => exact hrec
  | some u => exact hrec

theorem refreshSingleUrl_inv (cfg : KnowledgeBaseSettings) (record : CacheRecord)
    (outcome : CondOutcome) (fetchRes : Option String) (now : Int)
    (hrec : record.summary_pending = false → record.summary_text ≠ "") :
    (refreshSingleUrl cfg record outcome fetchRes now).1.summary_pending = false →
      (refreshSingleUrl cfg record outcome fetchRes now).1.summary_text ≠ "" := by
  unfold refreshSingleUrl
  cases hu : record.url with
  | none => exact hrec
  | some urlMeta =>
    cases outcome with
    | timeout => exact markUrlFailure_inv cfg record "timeout" now hrec
    | clientError => exact markUrlFailure_inv cfg record "error" now hrec
    | unexpectedError => exact markUrlFailure_inv cfg record "error" now hrec
    | ok status etag lastModified =>
      dsimp only
      by_cases h304 : status = 304
      · rw [if_pos h304]
        exact hrec
      · rw [if_neg h304]
        by_cases h200 : status ≠ 200
        · rw [if_pos h200]
          exact markUrlFailure_inv cfg record "error" now hrec
        · rw [if_neg h200]
          cases fetchRes with
          | none => exact markUrlFailure_inv cfg record "error" now hrec
          | some text =>
            dsimp only
            by_cases hsum : hashText text ≠ record.content_hash ∨
                record.summary_pending = true ∨ pyStripS record.summary_text = ""
            · rw [if_pos hsum]
              intro h
              simp at h
            · rw [if_neg hsum]
              push_neg at hsum
              intro _ he
              apply hsum.2.2
              rw [he]
              rfl

theorem refreshUrls_inv (cfg : KnowledgeBaseSettings) (env : CycleEnv)
    (cache : CacheState) (now : Int) (hinv : pendingInvariant cache) :
    pendingInvariant (refreshUrls cfg env cache now).1 ∧
      ∀ c ∈ (refreshUrls cfg env cache now).2.2, pendingInvariant c := by
  unfold refreshUrls
  have hgen : ∀ (pairs : List (String × CacheRecord)) (acc : CacheState × Bool × List CacheState),
      (∀ p ∈ pairs, p.2.summary_pending = false → p.2.summary_text ≠ "") →
      pendingInvariant acc.1 → (∀ c ∈ acc.2.2, pendingInvariant c) →
      pendingInvariant ((pairs.foldl
          (fun acc p =>
            let urlString := (p.2.url.map (fun u => u.url)).getD ""
            let r := refreshSingleUrl cfg p.2 (env.condRequest urlString)
              (env.urlFetch urlString) now
            if r.2 then
              let c := persistSnap { acc.1 with sources := alSet acc.1.sources p.1 r.1 } now
              (c, true, acc.2.2 ++ [c])
            else acc)
          acc).1) ∧
        ∀ c ∈ (pairs.foldl
          (fun acc p =>
            let urlString := (p.2.url.map (fun u => u.url)).getD ""
            let r := refreshSingleUrl cfg p.2 (env.condRequest urlString)
              (env.urlFetch urlString) now
            if r.2 then
              let c := persistSnap { acc.1 with sources := alSet acc.1.sources p.1 r.1 } now
              (c, true, acc.2.2 ++ [c])
            else acc)
          acc).2.2, pendingInvariant c := by
    intro pairs
    induction pairs with
    | nil => exact fun acc _ h1 h2 => ⟨h1, h2⟩
    | cons p rest ih =>
      intro acc hpairs h1 h2
      simp only [List.foldl_cons]
      have hrecinv := refreshSingleUrl_inv cfg p.2
        (env.condRequest ((p.2.url.map (fun u => u.url)).getD ""))
        (env.urlFetch ((p.2.url.map (fun u => u.url)).getD "")) now
        (hpairs p (List.mem_cons_self _ _))
      have hrest : ∀ q ∈ rest, q.2.summary_pending = false → q.2.summary_text ≠ "" :=
        fun q hq => hpairs q (List.mem_cons_of_mem _ hq)
      by_cases hch : (refreshSingleUrl cfg p.2
          (env.condRequest ((p.2.url.map (fun u => u.url)).getD ""))
          (env.urlFetch ((p.2.url.map (fun u => u.url)).getD "")) now).2
      · simp only [hch, if_true]
        have hnew : pendingInvariant (persistSnap
            { acc.1 with sources := alSet acc.1.sources p.1 (refreshSingleUrl cfg p.2
              (env.condRequest ((p.2.url.map (fun u => u.url)).getD ""))
              (env.urlFetch ((p.2.url.map (fun u => u.url)).getD "")) now).1 } now) :=
          inv_persistSnap _ _ (inv_alSet _ _ _ h1 hrecinv)
        refine ih _ hrest hnew ?_
        intro c hc
        rcases List.mem_append.mp hc with hc1 | hc2
        · exact h2 c hc1
        · rw [List.mem_singleton.mp hc2]
          exact hnew
      · simp only [hch, Bool.false_eq_true, if_false]
        exact ih acc hrest h1 h2
  refine hgen _ (cache, false, []) ?_ hinv (by simp)
  intro p hp
  exact hinv p (List.mem_of_mem_filter hp)

theorem summarizeSource_inv (cache : CacheState) (sid : String) (record : CacheRecord)
    (contentHash : String) (summaryRes : Option String) (now : Int)
    (hinv : pendingInvariant cache)
    (hres : ∀ s, summaryRes = some s → s ≠ "") :
    pendingInvariant (summarizeSource cache sid record contentHash summaryRes now).1 := by
  unfold summarizeSource
  cases hs : summaryRes with
  | none => exact hinv
  | some summary =>
    cases hg : alGet cache.sources sid with
    | none => exact hinv
    | some current =>
      dsimp only
      by_cases hcond : current = record ∧ current.summary_pending = true
      · rw [if_pos hcond]
        refine inv_alSet cache sid _ hinv ?_
        intro _ he
        exact hres summary hs (he ▸ rfl)
      · rw [if_neg hcond]
        exact hinv

theorem summarizePendingSources_inv (env : CycleEnv) (fileSources : List String)
    (cache : CacheState) (now : Int) (hinv : pendingInvariant cache)
    (hsum : ∀ sid text s, env.summarize sid text = some s → s ≠ "") :
    pendingInvariant (summarizePendingSources env fileSources cache now).1 ∧
      ∀ c ∈ (summarizePendingSources env fileSources cache now).2.2, pendingInvariant c := by
  unfold summarizePendingSources
  have hgen : ∀ (tasks : List (String × CacheRecord × String))
      (acc : CacheState × List String × List CacheState),
      pendingInvariant acc.1 → (∀ c ∈ acc.2.2, pendingInvariant c) →
      pendingInvariant ((tasks.foldl
          (fun acc task =>
            let r := summarizeSource acc.1 task.1 task.2.1 (hashText task.2.2)
              (env.summarize task.1 task.2.2) now
            if r.2 then
              let c := persistSnap r.1 now
              (c, acc.2.1 ++ [task.1], acc.2.2 ++ [c])
            else (r.1, acc.2.1 ++ [task.1], acc.2.2))
          acc).1) ∧
        ∀ c ∈ (tasks.foldl
          (fun acc task =>
            let r := summarizeSource acc.1 task.1 task.2.1 (hashText task.2.2)
              (env.summarize task.1 task.2.2) now
            if r.2 then
              let c := persistSnap r.1 now
              (c, acc.2.1 ++ [task.1], acc.2.2 ++ [c])
            else (r.1, acc.2.1 ++ [task.1], acc.2.2))
          acc).2.2, pendingInvariant c := by
    intro tasks
    induction tasks with
    | nil => exact fun acc h1 h2 => ⟨h1, h2⟩
    | cons task rest ih =>
      intro acc h1 h2
      simp only [List.foldl_cons]
      have hstep := summarizeSource_inv acc.1 task.1 task.2.1 (hashText task.2.2)
        (env.summarize task.1 task.2.2) now h1 (fun s hs => hsum task.1 task.2.2 s hs)
      by_cases hc : (summarizeSource acc.1 task.1 task.2.1 (hashText task.2.2)
          (env.summarize task.1 task.2.2) now).2
      · simp only [hc, if_true]
        refine ih _ (inv_persistSnap _ _ hstep) ?_
        intro c hcm
        rcases List.mem_append.mp hcm with hc1 | hc2
        · exact h2 c hc1
        · rw [List.mem_singleton.mp hc2]
          exact inv_persistSnap _ _ hstep
      · simp only [hc, Bool.false_eq_true, if_false]
        exact ih _ hstep h2
  exact hgen _ (cache, [], []) hinv (by simp)

theorem processFileSources_inv2 (env : CycleEnv) (fileSources : List String)
    (cache : CacheState) (now : Int) (hinv : pendingInvariant cache) :
    pendingInvariant (processFileSources env fileSources cache now).1 ∧
      ∀ c ∈ (processFileSources env fileSources cache now).2, pendingInvariant c := by
  unfold processFileSources
  exact processFileSources_inv env now (sortStrings fileSources) (cache, []) hinv (by simp)

theorem createUrlSources_inv2 (cfg : KnowledgeBaseSettings) (env : CycleEnv)
    (urlSources : List String) (cache : CacheState) (now : Int)
    (hinv : pendingInvariant cache) :
    pendingInvariant (createUrlSources cfg env urlSources cache now).1 ∧
      ∀ c ∈ (createUrlSources cfg env urlSources cache now).2, pendingInvariant c := by
  unfold createUrlSources
  exact createUrlSources_inv cfg env now (sortStrings urlSources) (cache, []) hinv (by simp)

/-- C2 (amended): the summarizer gate commits the summarizer's result
verbatim and performs no emptiness check, so the invariant
"summary_pending = false → summary_text ≠ \"\"" holds for every state
a full-scan cycle persists provided every summarizer result is
non-empty (and held on the input cache); an empty summarizer result
violates it (see the counterexample). -/
theorem processFullScan_inv (cfg : KnowledgeBaseSettings) (env : CycleEnv)
    (fileSources urlSources : List String) (cache : CacheState) (now : Int)
    (hsum : ∀ sid text s, env.summarize sid text = some s → s ≠ "")
    (hinv : pendingInvariant cache) :
    pendingInvariant (processFullScan cfg env fileSources urlSources cache now).1 ∧
      ∀ c ∈ (processFullScan cfg env fileSources urlSources cache now).2.1,
        pendingInvariant c := by
  unfold processFullScan
  obtain ⟨i1, l1⟩ := removeStale_inv2 cache (fileSources ++ urlSources) now hinv
  obtain ⟨i2, l2⟩ := processFileSources_inv2 env fileSources
    (removeStale cache (fileSources ++ urlSources) now).1 now i1
  obtain ⟨i3, l3⟩ := createUrlSources_inv2 cfg env urlSources
    (processFileSources env fileSources
      (removeStale cache (fileSources ++ urlSources) now).1 now).1 now i2
  obtain ⟨i4, l4⟩ := refreshUrls_inv cfg env
    (createUrlSources cfg env urlSources
      (processFileSources env fileSources
        (removeStale cache (fileSources ++ urlSources) now).1 now).1 now).1 now i3
  obtain ⟨i5, l5⟩ := summarizePendingSources_inv env fileSources
    (refreshUrls cfg env
      (createUrlSources cfg env urlSources
        (processFileSources env fileSources
          (removeStale cache (fileSources ++ urlSources) now).1 now).1 now).1 now).1 now i4 hsum
  refine ⟨i5, ?_⟩
  intro c hc
  simp only [List.append_assoc, List.mem_append] at hc
  rcases hc with hc | hc | hc | hc | hc
  · exact l1 c hc
  · exact l2 c hc
  · exact l3 c hc
  · exact l4 c hc
  · exact l5 c hc

theorem processFullScan_inv_witness :
    ((∀ sid text s, exEnv304.summarize sid text = some s → s ≠ "") ∧
        pendingInvariant exUrlCache) ∧
      pendingInvariant (processFullScan exCfg exEnv304 [] ["http://x"] exUrlCache 0).1 :=
  ⟨⟨fun sid text s h => by simp [exEnv304] at h, by unfold pendingInvariant; decide⟩,
    (processFullScan_inv exCfg exEnv304 [] ["http://x"] exUrlCache 0
      (fun sid text s h => by simp [exEnv304] at h)
      (by unfold pendingInvariant; decide)).1⟩

set_option maxRecDepth 8000 in
/-- C2 is false as stated: one cycle from the empty cache, with a
summarizer that returns the empty string, persists a record with
`summary_pending = false` and `summary_text = ""` — `_summarize_source`
commits whatever the summarizer returns. -/
theorem C2_counterexample_empty_summary_committed :
    ((alGet exEmptySummaryRun.1.sources "a.md").map
        (fun r => !r.summary_pending && (r.summary_text == ""))).getD false = true ∧
      exEmptySummaryRun.1 ∈ exEmptySummaryRun.2.1 ∧
      "a.md" ∈ exEmptySummaryRun.2.2 := by
  refine ⟨?_, ?_, ?_⟩ <;> decide

/-! ## C6: 304 Not Modified is a pure revalidation -/

theorem refreshSingleUrl_304 (cfg : KnowledgeBaseSettings) (record : CacheRecord)
    (u0 : UrlMetadata) (etag lastModified fetchRes : Option String) (now : Int)
    (hu : record.url = some u0) :
    refreshSingleUrl cfg record (CondOutcome.ok 304 etag lastModified) fetchRes now =
      ({ record with url := some { u0 with
          fetch_status := "not_modified",
          last_fetched_at := formatRfc3339 now,
          next_check_at := formatRfc3339 (now + cfg.url_refresh_min_interval_seconds) } },
        true) := by
  unfold refreshSingleUrl
  rw [hu]
  dsimp only
  rw [if_pos rfl]

theorem settled304_elim (S H : String) (u : UrlMetadata) (x : CacheRecord)
    (h : settled304 S H u x = true) :
    x.summary_pending = false ∧ x.summary_text = S ∧ x.content_hash = H ∧
      x.source_type = "url" ∧
      ∃ u2, x.url = some u2 ∧ u2.url = u.url ∧ u2.etag = u.etag ∧
        u2.last_modified = u.last_modified := by
  unfold settled304 at h
  cases hx : x.url with
  | none => rw [hx] at h; simp at h
  | some u2 =>
    rw [hx] at h
    simp only [Bool.and_eq_true, Bool.not_eq_true', beq_iff_eq] at h
    exact ⟨h.1.1.1.1, h.1.1.1.2, h.1.1.2, h.1.2, u2, rfl, h.2.1.1, h.2.1.2, h.2.2⟩

theorem settled304_intro (S H : String) (u : UrlMetadata) (x : CacheRecord)
    (hp : x.summary_pending = false) (hs : x.summary_text = S) (hh : x.content_hash = H)
    (ht : x.source_type = "url") (hu : x.url = some u) :
    settled304 S H u x = true := by
  unfold settled304
  rw [hu, hp, hs, hh, ht]
  simp

theorem settled304_refresh304 (cfg : KnowledgeBaseSettings) (S H : String)
    (u : UrlMetadata) (x : CacheRecord) (etag lastModified fetchRes : Option String)
    (now : Int) (hx : settled304 S H u x = true) :
    settled304 S H u
        (refreshSingleUrl cfg x (CondOutcome.ok 304 etag lastModified) fetchRes now).1 =
        true ∧
      (refreshSingleUrl cfg x (CondOutcome.ok 304 etag lastModified) fetchRes now).2 =
        true := by
  obtain ⟨hp, hs, hh, ht, u2, hu2, hurl, hetag, hlm⟩ := settled304_elim S H u x hx
  rw [refreshSingleUrl_304 cfg x u2 etag lastModified fetchRes now hu2]
  refine ⟨?_, rfl⟩
  simp [settled304, hp, hs, hh, ht, hurl, hetag, hlm]

theorem alKeys_alPop_nodup {α : Type} (m : List (String × α)) (k : String)
    (h : (alKeys m).Nodup) : (alKeys (alPop m k)).Nodup :=
  List.Nodup.sublist (List.Sublist.map _ (List.filter_sublist m)) h

theorem mem_alKeys_alSet {α : Type} : ∀ (m : List (String × α)) (k : String) (v : α)
    (a : String), a ∈ alKeys (alSet m k v) → a = k ∨ a ∈ alKeys m
  | [], k, v, a, h => by
    simp [alSet, alKeys] at h
    exact Or.inl h
  | p :: t, k, v, a, h => by
    simp only [alSet] at h
    by_cases hp : p.1 = k
    · rw [if_pos hp] at h
      simp only [alKeys, List.map_cons, List.mem_cons] at h ⊢
      rcases h with h | h
      · exact Or.inl h
      · exact Or.inr (Or.inr h)
    · rw [if_neg hp] at h
      simp only [alKeys, List.map_cons, List.mem_cons] at h ⊢
      rcases h with h | h
      · exact Or.inr (Or.inl h)
      · rcases mem_alKeys_alSet t k v a h with h1 | h1
        · exact Or.inl h1
        · exact Or.inr (Or.inr h1)

theorem alKeys_alSet_nodup {α : Type} : ∀ (m : List (String × α)) (k : String) (v : α),
    (alKeys m).Nodup → (alKeys (alSet m k v)).Nodup
  | [], k, v, _ => by simp [alSet, alKeys]
  | p :: t, k, v, h => by
    simp only [alKeys, List.map_cons, List.nodup_cons] at h
    by_cases hp : p.1 = k
    · simp only [alSet, if_pos hp]
      simp only [alKeys, List.map_cons, List.nodup_cons]
      exact ⟨hp ▸ h.1, h.2⟩
    · simp only [alSet, if_neg hp]
      simp only [alKeys, List.map_cons, List.nodup_cons]
      refine ⟨?_, alKeys_alSet_nodup t k v h.2⟩
      intro hmem
      rcases mem_alKeys_alSet t k v p.1 hmem with h1 | h1
      · exact hp h1
      · exact h.1 h1

theorem removeStale_go_frame (currentIds : List String) (now : Int) (sid : String)
    (hsid : sid ∈ currentIds) :
    ∀ (keys : List String) (acc : CacheState × List CacheState),
    (alKeys acc.1.sources).Nodup →
    alGet ((keys.foldl
        (fun acc sid =>
          if sid ∈ currentIds then acc
          else
            let c := persistSnap { acc.1 with sources := alPop acc.1.sources sid } now
            (c, acc.2 ++ [c]))
        acc).1).sources sid = alGet acc.1.sources sid ∧
      (alKeys ((keys.foldl
        (fun acc sid =>
          if sid ∈ currentIds then acc
          else
            let c := persistSnap { acc.1 with sources := alPop acc.1.sources sid } now
            (c, acc.2 ++ [c]))
        acc).1).sources).Nodup
  | [], acc, hn => ⟨rfl, hn⟩
  | k :: rest, acc, hn => by
    simp only [List.foldl_cons]
    by_cases hk : k ∈ currentIds
    · rw [if_pos hk]
      exact removeStale_go_frame currentIds now sid hsid rest acc hn
    · rw [if_neg hk]
      have hne : k ≠ sid := fun h => hk (h ▸ hsid)
      have hstep := removeStale_go_frame currentIds now sid hsid rest
        (persistSnap { acc.1 with sources := alPop acc.1.sources k } now,
          acc.2 ++ [persistSnap { acc.1 with sources := alPop acc.1.sources k } now])
        (by simpa [persistSnap] using alKeys_alPop_nodup acc.1.sources k hn)
      exact ⟨hstep.1.trans
        (by simpa [persistSnap] using alGet_alPop_ne acc.1.sources k sid hne), hstep.2⟩

theorem removeStale_frame (cache : CacheState) (currentIds : List String) (now : Int)
    (sid : String) (hsid : sid ∈ currentIds) (hn : (alKeys cache.sources).Nodup) :
    alGet (removeStale cache currentIds now).1.sources sid = alGet cache.sources sid ∧
      (alKeys (removeStale cache currentIds now).1.sources).Nodup := by
  unfold removeStale
  exact removeStale_go_frame currentIds now sid hsid (alKeys cache.sources) (cache, []) hn

theorem processFileSource_frame (cache : CacheState) (relPath : String) (stat : Option Stat)
    (readRes : Option String) (now : Int) (sid : String) (hne : relPath ≠ sid)
    (hn : (alKeys cache.sources).Nodup) :
    alGet (processFileSource cache relPath stat readRes now).cache.sources sid =
        alGet cache.sources sid ∧
      (alKeys (processFileSource cache relPath stat readRes now).cache.sources).Nodup := by
  unfold processFileSource
  cases stat with
  | none => exact ⟨rfl, hn⟩
  | some st =>
    cases alGet cache.sources relPath with
    | none =>
      cases readRes with
      | none => exact ⟨rfl, hn⟩
      | some text =>
        exact ⟨alGet_alSet_ne cache.sources relPath sid _ hne,
          alKeys_alSet_nodup cache.sources relPath _ hn⟩
    | some record =>
      dsimp only
      by_cases htype : record.source_type ≠ "file"
      · rw [if_pos htype]
        exact ⟨alGet_alPop_ne cache.sources relPath sid hne,
          alKeys_alPop_nodup cache.sources relPath hn⟩
      · rw [if_neg htype]
        by_cases hsame : (record.file.getD ⟨relPath, st.st_size, st.st_mtime_ns⟩).size_bytes =
            st.st_size ∧ (record.file.getD ⟨relPath, st.st_size, st.st_mtime_ns⟩).mtime_ns =
            st.st_mtime_ns
        · rw [if_pos hsame]
          exact ⟨rfl, hn⟩
        · rw [if_neg hsame]
          cases readRes with
          | none => exact ⟨rfl, hn⟩
          | some text =>
            dsimp only
            by_cases hch : hashText text ≠ record.content_hash ∨ record.summary_pending = true
            · rw [if_pos hch]
              exact ⟨alGet_alSet_ne cache.sources relPath sid _ hne,
                alKeys_alSet_nodup cache.sources relPath _ hn⟩
            · rw [if_neg hch]
              exact ⟨alGet_alSet_ne cache.sources relPath sid _ hne,
                alKeys_alSet_nodup cache.sources relPath _ hn⟩

theorem processFileSources_go_frame (env : CycleEnv) (now : Int) (sid : String) :
    ∀ (paths : List String) (acc : CacheState × List CacheState),
    sid ∉ paths → (alKeys acc.1.sources).Nodup →
    alGet ((paths.foldl
        (fun acc relPath =>
          let r := processFileSource acc.1 relPath (env.fileStat relPath)
            (env.fileRead relPath) now
          if r.persisted then
            let c := persistSnap r.cache now
            (c, acc.2 ++ [c])
          else (r.cache, acc.2))
        acc).1).sources sid = alGet acc.1.sources sid ∧
      (alKeys ((paths.foldl
        (fun acc relPath =>
          let r := processFileSource acc.1 relPath (env.fileStat relPath)
            (env.fileRead relPath) now
          if r.persisted then
            let c := persistSnap r.cache now
            (c, acc.2 ++ [c])
          else (r.cache, acc.2))
        acc).1).sources).Nodup
  | [], acc, _, hn => ⟨rfl, hn⟩
  | relPath :: rest, acc, hnin, hn => by
    have hne : relPath ≠ sid := fun h => hnin (h ▸ List.mem_cons_self _ _)
    have hnin' : sid ∉ rest := fun h => hnin (List.mem_cons_of_mem _ h)
    simp only [List.foldl_cons]
    have hstep := processFileSource_frame acc.1 relPath (env.fileStat relPath)
      (env.fileRead relPath) now sid hne hn
    by_cases hp : (processFileSource acc.1 relPath (env.fileStat relPath)
        (env.fileRead relPath) now).persisted
    · simp only [hp, if_true]
      have hrec := processFileSources_go_frame env now sid rest
        (persistSnap (processFileSource acc.1 relPath (env.fileStat relPath)
            (env.fileRead relPath) now).cache now,
          acc.2 ++ [persistSnap (processFileSource acc.1 relPath (env.fileStat relPath)
            (env.fileRead relPath) now).cache now])
        hnin' (by simpa [persistSnap] using hstep.2)
      exact ⟨hrec.1.trans (by simpa [persistSnap] using hstep.1), hrec.2⟩
    · simp only [hp, Bool.false_eq_true, if_false]
      have hrec := processFileSources_go_frame env now sid rest
        ((processFileSource acc.1 relPath (env.fileStat relPath)
          (env.fileRead relPath) now).cache, acc.2) hnin' hstep.2
      exact ⟨hrec.1.trans hstep.1, hrec.2⟩

theorem processFileSources_frame (env : CycleEnv) (fileSources : List String)
    (cache : CacheState) (now : Int) (sid : String) (hfile : sid ∉ fileSources)
    (hn : (alKeys cache.sources).Nodup) :
    alGet (processFileSources env fileSources cache now).1.sources sid =
        alGet cache.sources sid ∧
      (alKeys (processFileSources env fileSources cache now).1.sources).Nodup := by
  unfold processFileSources
  exact processFileSources_go_frame env now sid (sortStrings fileSources) (cache, [])
    (fun h => hfile ((mem_stableSort (fun a b => decide (a ≤ b)) sid fileSources).mp h)) hn

theorem createUrlSources_go_frame (cfg : KnowledgeBaseSettings) (env : CycleEnv)
    (now : Int) (sid : String) (x : CacheRecord) :
    ∀ (urls : List String) (acc : CacheState × List CacheState),
    alGet acc.1.sources sid = some x → (alKeys acc.1.sources).Nodup →
    alGet ((urls.foldl
        (fun acc url =>
          match alGet acc.1.sources url with
          | some _ => acc
          | none =>
            let r := createUrlSource cfg env acc.1 url now
            if r.2 then
              let c := persistSnap r.1 now
              (c, acc.2 ++ [c])
            else (r.1, acc.2))
        acc).1).sources sid = some x ∧
      (alKeys ((urls.foldl
        (fun acc url =>
          match alGet acc.1.sources url with
          | some _ => acc
          | none =>
            let r := createUrlSource cfg env acc.1 url now
            if r.2 then
              let c := persistSnap r.1 now
              (c, acc.2 ++ [c])
            else (r.1, acc.2))
        acc).1).sources).Nodup
  | [], acc, hg, hn => ⟨hg, hn⟩
  | url :: rest, acc, hg, hn => by
    simp only [List.foldl_cons]
    cases hgu : alGet acc.1.sources url with
    | some r0 => exact createUrlSources_go_frame cfg env now sid x rest acc hg hn
    | none =>
      have hne : url ≠ sid := fun h => by rw [h, hg] at hgu; exact Option.noConfusion hgu
      have hframe : alGet (createUrlSource cfg env acc.1 url now).1.sources sid = some x ∧
          (alKeys (createUrlSource cfg env acc.1 url now).1.sources).Nodup := by
        unfold createUrlSource
        cases env.urlFetch url with
        | none => exact ⟨hg, hn⟩
        | some text =>
          exact ⟨(alGet_alSet_ne acc.1.sources url sid _ hne).trans hg,
            alKeys_alSet_nodup acc.1.sources url _ hn⟩
      dsimp only
      by_cases hp : (createUrlSource cfg env acc.1 url now).2
      · simp only [hp, if_true]
        exact createUrlSources_go_frame cfg env now sid x rest
          (persistSnap (createUrlSource cfg env acc.1 url now).1 now,
            acc.2 ++ [persistSnap (createUrlSource cfg env acc.1 url now).1 now])
          (by simpa [persistSnap] using hframe.1)
          (by simpa [persistSnap] using hframe.2)
      · simp only [hp, Bool.false_eq_true, if_false]
        exact createUrlSources_go_frame cfg env now sid x rest
          ((createUrlSource cfg env acc.1 url now).1, acc.2) hframe.1 hframe.2

theorem createUrlSources_frame (cfg : KnowledgeBaseSettings) (env : CycleEnv)
    (urlSources : List String) (cache : CacheState) (now : Int) (sid : String)
    (x : CacheRecord) (hget : alGet cache.sources sid = some x)
    (hn : (alKeys cache.sources).Nodup) :
    alGet (createUrlSources cfg env urlSources cache now).1.sources sid = some x ∧
      (alKeys (createUrlSources cfg env urlSources cache now).1.sources).Nodup := by
  unfold createUrlSources
  exact createUrlSources_go_frame cfg env now sid x (sortStrings urlSources) (cache, []) hget hn

theorem refreshUrls_go_settled (cfg : KnowledgeBaseSettings) (env : CycleEnv) (now : Int)
    (S H : String) (u : UrlMetadata) (sid : String)
    (hcond : ∃ et lm, env.condRequest u.url = CondOutcome.ok 304 et lm) :
    ∀ (pairs : List (String × CacheRecord)) (acc : CacheState × Bool × List CacheState),
    (∀ p ∈ pairs, p.1 = sid → settled304 S H u p.2 = true) →
    (∃ y, alGet acc.1.sources sid = some y ∧ settled304 S H u y = true) →
    (alKeys acc.1.sources).Nodup →
    (∃ y, alGet ((pairs.foldl
        (fun acc p =>
          let urlString := (p.2.url.map (fun u => u.url)).getD ""
          let r := refreshSingleUrl cfg p.2 (env.condRequest urlString)
            (env.urlFetch urlString) now
          if r.2 then
            let c := persistSnap { acc.1 with sources := alSet acc.1.sources p.1 r.1 } now
            (c, true, acc.2.2 ++ [c])
          else acc)
        acc).1).sources sid = some y ∧ settled304 S H u y = true) ∧
      (alKeys ((pairs.foldl
        (fun acc p =>
          let urlString := (p.2.url.map (fun u => u.url)).getD ""
          let r := refreshSingleUrl cfg p.2 (env.condRequest urlString)
            (env.urlFetch urlString) now
          if r.2 then
            let c := persistSnap { acc.1 with sources := alSet acc.1.sources p.1 r.1 } now
            (c, true, acc.2.2 ++ [c])
          else acc)
        acc).1).sources).Nodup
  | [], acc, _, hinv, hn => ⟨hinv, hn⟩
  | p :: rest, acc, hpairs, hinv, hn => by
    obtain ⟨pk, pv⟩ := p
    simp only [List.foldl_cons]
    have hrest : ∀ q ∈ rest, q.1 = sid → settled304 S H u q.2 = true :=
      fun q hq => hpairs q (List.mem_cons_of_mem _ hq)
    by_cases hps : pk = sid
    · subst hps
      have hsp : settled304 S H u pv = true := hpairs (pk, pv) (List.mem_cons_self _ _) rfl
      obtain ⟨hp0, hs0, hh0, ht0, u2, hu2, hurl2, het2, hlm2⟩ := settled304_elim S H u pv hsp
      have hstr : ((pv.url.map (fun u => u.url)).getD "") = u.url := by
        rw [hu2]
        simpa using hurl2
      obtain ⟨et, lm, hc⟩ := hcond
      have hr2 : (refreshSingleUrl cfg pv
          (env.condRequest ((pv.url.map (fun u => u.url)).getD ""))
          (env.urlFetch ((pv.url.map (fun u => u.url)).getD "")) now).2 = true := by
        rw [hstr, hc]
        exact (settled304_refresh304 cfg S H u pv et lm (env.urlFetch u.url) now hsp).2
      have hr1 : settled304 S H u (refreshSingleUrl cfg pv
          (env.condRequest ((pv.url.map (fun u => u.url)).getD ""))
          (env.urlFetch ((pv.url.map (fun u => u.url)).getD "")) now).1 = true := by
        rw [hstr, hc]
        exact (settled304_refresh304 cfg S H u pv et lm (env.urlFetch u.url) now hsp).1
      simp only [hr2, if_true]
      refine refreshUrls_go_settled cfg env now S H u pk ⟨et, lm, hc⟩ rest _ hrest
        ⟨_, ?_, hr1⟩ ?_
      · simpa [persistSnap] using alGet_alSet_self acc.1.sources pk
          (refreshSingleUrl cfg pv
            (env.condRequest ((pv.url.map (fun u => u.url)).getD ""))
            (env.urlFetch ((pv.url.map (fun u => u.url)).getD "")) now).1
      · simpa [persistSnap] using alKeys_alSet_nodup acc.1.sources pk
          (refreshSingleUrl cfg pv
            (env.condRequest ((pv.url.map (fun u => u.url)).getD ""))
            (env.urlFetch ((pv.url.map (fun u => u.url)).getD "")) now).1 hn
    · by_cases hch : (refreshSingleUrl cfg pv
          (env.condRequest ((pv.url.map (fun u => u.url)).getD ""))
          (env.urlFetch ((pv.url.map (fun u => u.url)).getD "")) now).2
      · simp only [hch, if_true]
        obtain ⟨y, hy, hsy⟩ := hinv
        refine refreshUrls_go_settled cfg env now S H u sid hcond rest _ hrest
          ⟨y, ?_, hsy⟩ ?_
        · simpa [persistSnap] using (alGet_alSet_ne acc.1.sources pk sid _ hps).trans hy
        · simpa [persistSnap] using alKeys_alSet_nodup acc.1.sources pk
            (refreshSingleUrl cfg pv
              (env.condRequest ((pv.url.map (fun u => u.url)).getD ""))
              (env.urlFetch ((pv.url.map (fun u => u.url)).getD "")) now).1 hn
      · simp only [hch, Bool.false_eq_true, if_false]
        exact refreshUrls_go_settled cfg env now S H u sid hcond rest acc hrest hinv hn

theorem refreshUrls_settled (cfg : KnowledgeBaseSettings) (env : CycleEnv)
    (cache : CacheState) (now : Int) (S H : String) (u : UrlMetadata) (sid : String)
    (r : CacheRecord) (hget : alGet cache.sources sid = some r)
    (hr : settled304 S H u r = true) (hn : (alKeys cache.sources).Nodup)
    (hcond : ∃ et lm, env.condRequest u.url = CondOutcome.ok 304 et lm) :
    (∃ y, alGet (refreshUrls cfg env cache now).1.sources sid = some y ∧
        settled304 S H u y = true) ∧
      (alKeys (refreshUrls cfg env cache now).1.sources).Nodup := by
  unfold refreshUrls
  refine refreshUrls_go_settled cfg env now S H u sid hcond _ (cache, false, []) ?_
    ⟨r, hget, hr⟩ hn
  intro p hp hps
  have hmem : (sid, p.2) ∈ cache.sources := by
    have h1 := List.mem_of_mem_filter hp
    have h2 : p = (sid, p.2) := by rw [← hps]
    rwa [h2] at h1
  have h3 := alNodup_unique cache.sources hn sid p.2 r hmem
    (alGet_some_mem cache.sources sid r hget)
  rw [h3]
  exact hr

theorem summarize_go_calls (env : CycleEnv) (now : Int) :
    ∀ (tasks : List (String × CacheRecord × String))
      (acc : CacheState × List String × List CacheState),
    ((tasks.foldl
        (fun acc task =>
          let r := summarizeSource acc.1 task.1 task.2.1 (hashText task.2.2)
            (env.summarize task.1 task.2.2) now
          if r.2 then
            let c := persistSnap r.1 now
            (c, acc.2.1 ++ [task.1], acc.2.2 ++ [c])
          else (r.1, acc.2.1 ++ [task.1], acc.2.2))
        acc).2.1) = acc.2.1 ++ tasks.map Prod.fst
  | [], acc => by simp
  | task :: rest, acc => by
    simp only [List.foldl_cons, List.map_cons]
    by_cases hc : (summarizeSource acc.1 task.1 task.2.1 (hashText task.2.2)
        (env.summarize task.1 task.2.2) now).2
    · simp only [hc, if_true]
      rw [summarize_go_calls env now rest _]
      simp
    · simp only [hc, Bool.false_eq_true, if_false]
      rw [summarize_go_calls env now rest _]
      simp

theorem summarizeSource_frame (cache : CacheState) (tid : String) (record : CacheRecord)
    (contentHash : String) (summaryRes : Option String) (now : Int) (sid : String)
    (hne : tid ≠ sid) (hn : (alKeys cache.sources).Nodup) :
    alGet (summarizeSource cache tid record contentHash summaryRes now).1.sources sid =
        alGet cache.sources sid ∧
      (alKeys (summarizeSource cache tid record contentHash summaryRes now).1.sources).Nodup := by
  unfold summarizeSource
  cases summaryRes with
  | none => exact ⟨rfl, hn⟩
  | some summary =>
    cases alGet cache.sources tid with
    | none => exact ⟨rfl, hn⟩
    | some current =>
      dsimp only
      by_cases hcond : current = record ∧ current.summary_pending = true
      · rw [if_pos hcond]
        exact ⟨alGet_alSet_ne cache.sources tid sid _ hne,
          alKeys_alSet_nodup cache.sources tid _ hn⟩
      · rw [if_neg hcond]
        exact ⟨rfl, hn⟩

theorem summarize_go_frame (env : CycleEnv) (now : Int) (sid : String) :
    ∀ (tasks : List (String × CacheRecord × String))
      (acc : CacheState × List String × List CacheState),
    (∀ t ∈ tasks, t.1 ≠ sid) → (alKeys acc.1.sources).Nodup →
    alGet ((tasks.foldl
        (fun acc task =>
          let r := summarizeSource acc.1 task.1 task.2.1 (hashText task.2.2)
            (env.summarize task.1 task.2.2) now
          if r.2 then
            let c := persistSnap r.1 now
            (c, acc.2.1 ++ [task.1], acc.2.2 ++ [c])
          else (r.1, acc.2.1 ++ [task.1], acc.2.2))
        acc).1).sources sid = alGet acc.1.sources sid ∧
      (alKeys ((tasks.foldl
        (fun acc task =>
          let r := summarizeSource acc.1 task.1 task.2.1 (hashText task.2.2)
            (env.summarize task.1 task.2.2) now
          if r.2 then
            let c := persistSnap r.1 now
            (c, acc.2.1 ++ [task.1], acc.2.2 ++ [c])
          else (r.1, acc.2.1 ++ [task.1], acc.2.2))
        acc).1).sources).Nodup
  | [], acc, _, hn => ⟨rfl, hn⟩
  | task :: rest, acc, hne, hn => by
    simp only [List.foldl_cons]
    have hne1 : task.1 ≠ sid := hne task (List.mem_cons_self _ _)
    have hner : ∀ t ∈ rest, t.1 ≠ sid := fun t ht => hne t (List.mem_cons_of_mem _ ht)
    have hstep := summarizeSource_frame acc.1 task.1 task.2.1 (hashText task.2.2)
      (env.summarize task.1 task.2.2) now sid hne1 hn
    by_cases hc : (summarizeSource acc.1 task.1 task.2.1 (hashText task.2.2)
        (env.summarize task.1 task.2.2) now).2
    · simp only [hc, if_true]
      have hrec := summarize_go_frame env now sid rest
        (persistSnap (summarizeSource acc.1 task.1 task.2.1 (hashText task.2.2)
            (env.summarize task.1 task.2.2) now).1 now,
          acc.2.1 ++ [task.1],
          acc.2.2 ++ [persistSnap (summarizeSource acc.1 task.1 task.2.1 (hashText task.2.2)
            (env.summarize task.1 task.2.2) now).1 now])
        hner (by simpa [persistSnap] using hstep.2)
      exact ⟨hrec.1.trans (by simpa [persistSnap] using hstep.1), hrec.2⟩
    · simp only [hc, Bool.false_eq_true, if_false]
      have hrec := summarize_go_frame env now sid rest
        ((summarizeSource acc.1 task.1 task.2.1 (hashText task.2.2)
          (env.summarize task.1 task.2.2) now).1, acc.2.1 ++ [task.1], acc.2.2)
        hner hstep.2
      exact ⟨hrec.1.trans hstep.1, hrec.2⟩

theorem summarizeTasks_mem (env : CycleEnv) (fileSources : List String) (cache : CacheState)
    (t : String × CacheRecord × String) (ht : t ∈ summarizeTasks env fileSources cache) :
    (t.1, t.2.1) ∈ cache.sources ∧ t.2.1.summary_pending = true := by
  unfold summarizeTasks at ht
  obtain ⟨p, hp, hf⟩ := List.mem_filterMap.mp ht
  by_cases hpend : p.2.summary_pending = true
  · rw [if_neg (not_not_intro hpend)] at hf
    by_cases hft : p.2.source_type = "file"
    · rw [if_pos hft] at hf
      cases hfile : p.2.file with
      | none => rw [hfile] at hf; exact absurd hf (by simp)
      | some fileMeta =>
        rw [hfile] at hf
        dsimp only at hf
        by_cases hin : fileMeta.rel_path ∈ fileSources
        · rw [if_pos hin] at hf
          obtain ⟨text, htext, hteq⟩ := Option.map_eq_some'.mp hf
          refine ⟨?_, ?_⟩ <;> rw [← hteq]
          · exact hp
          · exact hpend
        · rw [if_neg hin] at hf
          exact absurd hf (by simp)
    · rw [if_neg hft] at hf
      by_cases hfu : p.2.source_type = "url"
      · rw [if_pos hfu] at hf
        cases hurl : p.2.url with
        | none => rw [hurl] at hf; exact absurd hf (by simp)
        | some urlMeta =>
          rw [hurl] at hf
          dsimp only at hf
          obtain ⟨text, htext, hteq⟩ := Option.map_eq_some'.mp hf
          refine ⟨?_, ?_⟩ <;> rw [← hteq]
          · exact hp
          · exact hpend
      · rw [if_neg hfu] at hf
        exact absurd hf (by simp)
  · rw [if_pos hpend] at hf
    exact absurd hf (by simp)

theorem summarizePending_frame (env : CycleEnv) (fileSources : List String)
    (cache : CacheState) (now : Int) (sid : String) (x : CacheRecord)
    (hget : alGet cache.sources sid = some x) (hpend : x.summary_pending = false)
    (hn : (alKeys cache.sources).Nodup) :
    alGet (summarizePendingSources env fileSources cache now).1.sources sid = some x ∧
      (alKeys (summarizePendingSources env fileSources cache now).1.sources).Nodup ∧
      sid ∉ (summarizePendingSources env fileSources cache now).2.1 := by
  have hne : ∀ t ∈ summarizeTasks env fileSources cache, t.1 ≠ sid := by
    intro t ht heq
    obtain ⟨hmem, hp⟩ := summarizeTasks_mem env fileSources cache t ht
    rw [heq] at hmem
    have h3 := alNodup_unique cache.sources hn sid t.2.1 x hmem
      (alGet_some_mem cache.sources sid x hget)
    rw [h3, hpend] at hp
    exact Bool.false_ne_true hp
  unfold summarizePendingSources
  have hframe := summarize_go_frame env now sid (summarizeTasks env fileSources cache)
    (cache, [], []) hne hn
  have hcalls := summarize_go_calls env now (summarizeTasks env fileSources cache)
    (cache, [], [])
  refine ⟨hframe.1.trans hget, hframe.2, ?_⟩
  rw [hcalls]
  simp only [List.nil_append]
  intro hmem
  obtain ⟨t, ht, hteq⟩ := List.mem_map.mp hmem
  exact hne t ht hteq

theorem processFullScan_304 (cfg : KnowledgeBaseSettings) (env : CycleEnv)
    (fileSources urlSources : List String) (cache : CacheState) (now : Int)
    (S H : String) (u : UrlMetadata) (sid : String) (r : CacheRecord)
    (hn : (alKeys cache.sources).Nodup)
    (hget : alGet cache.sources sid = some r)
    (hr : settled304 S H u r = true)
    (hcond : ∃ et lm, env.condRequest u.url = CondOutcome.ok 304 et lm)
    (hurl : sid ∈ urlSources) (hfile : sid ∉ fileSources) :
    (∃ y, alGet (processFullScan cfg env fileSources urlSources cache now).1.sources sid =
        some y ∧ settled304 S H u y = true) ∧
      (alKeys (processFullScan cfg env fileSources urlSources cache now).1.sources).Nodup ∧
      sid ∉ (processFullScan cfg env fileSources urlSources cache now).2.2 := by
  unfold processFullScan
  have hsid1 : sid ∈ fileSources ++ urlSources := List.mem_append.mpr (Or.inr hurl)
  obtain ⟨e1, n1⟩ := removeStale_frame cache (fileSources ++ urlSources) now sid hsid1 hn
  have hg1 : alGet (removeStale cache (fileSources ++ urlSources) now).1.sources sid =
      some r := e1.trans hget
  obtain ⟨e2, n2⟩ := processFileSources_frame env fileSources
    (removeStale cache (fileSources ++ urlSources) now).1 now sid hfile n1
  have hg2 : alGet (processFileSources env fileSources
      (removeStale cache (fileSources ++ urlSources) now).1 now).1.sources sid = some r :=
    e2.trans hg1
  obtain ⟨e3, n3⟩ := createUrlSources_frame cfg env urlSources
    (processFileSources env fileSources
      (removeStale cache (fileSources ++ urlSources) now).1 now).1 now sid r hg2 n2
  obtain ⟨⟨y, hy, hsy⟩, n4⟩ := refreshUrls_settled cfg env
    (createUrlSources cfg env urlSources
      (processFileSources env fileSources
        (removeStale cache (fileSources ++ urlSources) now).1 now).1 now).1 now
    S H u sid r e3 hr n3 hcond
  have hyp : y.summary_pending = false := (settled304_elim S H u y hsy).1
  obtain ⟨e5, n5, hnc⟩ := summarizePending_frame env fileSources
    (refreshUrls cfg env
      (createUrlSources cfg env urlSources
        (processFileSources env fileSources
          (removeStale cache (fileSources ++ urlSources) now).1 now).1 now).1 now).1 now
    sid y hy hyp n4
  exact ⟨⟨y, e5, hsy⟩, n5, hnc⟩

theorem runCycles_settled (cfg : KnowledgeBaseSettings) (S H : String) (u : UrlMetadata)
    (sid : String) :
    ∀ (cycles : List (CycleEnv × List String × List String × Int)) (cache : CacheState)
      (r : CacheRecord),
    (alKeys cache.sources).Nodup → alGet cache.sources sid = some r →
    settled304 S H u r = true →
    (∀ c ∈ cycles, (∃ et lm, c.1.condRequest u.url = CondOutcome.ok 304 et lm) ∧
        sid ∈ c.2.2.1 ∧ sid ∉ c.2.1) →
    (∃ y, alGet (runCycles cfg cycles cache).1.sources sid = some y ∧
        settled304 S H u y = true) ∧
      sid ∉ (runCycles cfg cycles cache).2
  | [], cache, r, hn, hget, hr, _ => by
    simp only [runCycles]
    exact ⟨⟨r, hget, hr⟩, by simp⟩
  | c :: rest, cache, r, hn, hget, hr, hcyc => by
    obtain ⟨hcond, hurl, hfile⟩ := hcyc c (List.mem_cons_self _ _)
    obtain ⟨⟨y, hy, hsy⟩, hn1, hnc⟩ := processFullScan_304 cfg c.1 c.2.1 c.2.2.1 cache
      c.2.2.2 S H u sid r hn hget hr hcond hurl hfile
    have hrec := runCycles_settled cfg S H u sid rest
      (processFullScan cfg c.1 c.2.1 c.2.2.1 cache c.2.2.2).1 y hn1 hy hsy
      (fun c' hc' => hcyc c' (List.mem_cons_of_mem _ hc'))
    simp only [runCycles]
    refine ⟨hrec.1, ?_⟩
    intro hmem
    rcases List.mem_append.mp hmem with h | h
    · exact hnc h
    · exact hrec.2 h

/-- C6: a `304 Not Modified` answer to the conditional request makes
`_refresh_single_url` set `fetch_status = "not_modified"`,
`last_fetched_at = now` and `next_check_at = now +
url_refresh_min_interval`, leave every other field of the record
unchanged and report `changed = true`; consequently a url record whose
summary is committed and whose server always answers 304 keeps its
`summary_pending`, `summary_text`, `content_hash`, `etag` and
`last_modified` across any run of full-scan cycles that discovers it
as a url source, and the summarizer is never invoked for it. -/
theorem refresh304_frame_and_preservation
    (cfg : KnowledgeBaseSettings) (record : CacheRecord) (u0 : UrlMetadata)
    (etag lastModified fetchRes : Option String) (now : Int)
    (cycles : List (CycleEnv × List String × List String × Int))
    (cache : CacheState) (sid : String) (r : CacheRecord) (u : UrlMetadata)
    (hu0 : record.url = some u0)
    (hn : (alKeys cache.sources).Nodup)
    (hget : alGet cache.sources sid = some r)
    (hpend : r.summary_pending = false)
    (htype : r.source_type = "url")
    (hurl : r.url = some u)
    (hcyc : ∀ c ∈ cycles, (∃ et lm, c.1.condRequest u.url = CondOutcome.ok 304 et lm) ∧
        sid ∈ c.2.2.1 ∧ sid ∉ c.2.1) :
    refreshSingleUrl cfg record (CondOutcome.ok 304 etag lastModified) fetchRes now =
        ({ record with url := some { u0 with
            fetch_status := "not_modified",
            last_fetched_at := formatRfc3339 now,
            next_check_at := formatRfc3339 (now + cfg.url_refresh_min_interval_seconds) } },
          true) ∧
      (∃ y, alGet (runCycles cfg cycles cache).1.sources sid = some y ∧
          y.summary_pending = false ∧ y.summary_text = r.summary_text ∧
          y.content_hash = r.content_hash ∧
          ∃ u2, y.url = some u2 ∧ u2.url = u.url ∧ u2.etag = u.etag ∧
            u2.last_modified = u.last_modified) ∧
      sid ∉ (runCycles cfg cycles cache).2 := by
  have hr : settled304 r.summary_text r.content_hash u r = true :=
    settled304_intro _ _ u r hpend rfl rfl htype hurl
  obtain ⟨⟨y, hy, hsy⟩, hnc⟩ := runCycles_settled cfg r.summary_text r.content_hash u sid
    cycles cache r hn hget hr hcyc
  obtain ⟨hyp, hys, hyh, _, u2, hyu, hu2u, hu2e, hu2l⟩ :=
    settled304_elim r.summary_text r.content_hash u y hsy
  exact ⟨refreshSingleUrl_304 cfg record u0 etag lastModified fetchRes now hu0,
    ⟨y, hy, hyp, hys, hyh, u2, hyu, hu2u, hu2e, hu2l⟩, hnc⟩

theorem refresh304_frame_and_preservation_witness :
    (exUrlRecord.url = some exUrlMeta ∧
        (alKeys exUrlCache.sources).Nodup ∧
        alGet exUrlCache.sources "http://x" = some exUrlRecord ∧
        exUrlRecord.summary_pending = false ∧
        exUrlRecord.source_type = "url" ∧
        exUrlRecord.url = some exUrlMeta ∧
        (∀ c ∈ exCycles,
          (∃ et lm, c.1.condRequest exUrlMeta.url = CondOutcome.ok 304 et lm) ∧
            "http://x" ∈ c.2.2.1 ∧ "http://x" ∉ c.2.1)) ∧
      (refreshSingleUrl exCfg exUrlRecord (CondOutcome.ok 304 none none) none 0 =
          ({ exUrlRecord with url := some { exUrlMeta with
              fetch_status := "not_modified",
              last_fetched_at := formatRfc3339 0,
              next_check_at :=
                formatRfc3339 (0 + exCfg.url_refresh_min_interval_seconds) } },
            true) ∧
        (∃ y, alGet (runCycles exCfg exCycles exUrlCache).1.sources "http://x" = some y ∧
            y.summary_pending = false ∧ y.summary_text = exUrlRecord.summary_text ∧
            y.content_hash = exUrlRecord.content_hash ∧
            ∃ u2, y.url = some u2 ∧ u2.url = exUrlMeta.url ∧ u2.etag = exUrlMeta.etag ∧
              u2.last_modified = exUrlMeta.last_modified) ∧
        "http://x" ∉ (runCycles exCfg exCycles exUrlCache).2) :=
  ⟨⟨by decide, by decide, by decide, by decide, by decide, by decide,
      by
        intro c hc
        simp only [exCycles, List.mem_singleton] at hc
        subst hc
        exact ⟨⟨none, none, rfl⟩, by decide, by decide⟩⟩,
    refresh304_frame_and_preservation exCfg exUrlRecord exUrlMeta none none none 0
      exCycles exUrlCache "http://x" exUrlRecord exUrlMeta (by decide) (by decide)
      (by decide) (by decide) (by decide) (by decide)
      (by
        intro c hc
        simp only [exCycles, List.mem_singleton] at hc
        subst hc
        exact ⟨⟨none, none, rfl⟩, by decide, by decide⟩)⟩

end CommunityIntern
